import Mathlib

set_option synthInstance.maxSize 1024

/-
Verification of the Lightning lock-free hash map (src/map.rs) against its
specification.

The embedding is a sequential (single-threaded) semantics of the source:
every atomic load reads the current state, every CAS is modeled by the
conditional compare-then-set it performs, and a panic (or undefined
behavior such as a null-pointer dereference) is modeled by returning
`none` from the operation.  In a quiescent sequential execution the
`new_chunk` pointer is null between operations, because `check_resize`
completes the whole migration before returning; the state of the table
between operations is therefore a current chunk plus an always-empty
`new_chunk` option.  Machine words are modeled as `Nat`; the word width is
64 bits and overflow is taken mod 2^64 exactly where the source can
overflow (the facade key offset).
-/

namespace Lightning

/-- Word width of usize on the reference platform (64 bits). -/
def USIZE_BITS : Nat := 64

/-- 2 ^ 64, the modulus of usize arithmetic. -/
def USIZE_SIZE : Nat := 2 ^ 64

/-- const EMPTY_KEY: usize = 0 -/
def EMPTY_KEY : Nat := 0

/-- const SENTINEL_VALUE: usize = 1 -/
def SENTINEL_VALUE : Nat := 1

/-- val_bit_mask = !0 << 1 >> 1 computed in usize arithmetic
(with_capacity stores this constant in the table; it only depends on the
word width, so we model it as a global constant). -/
def VAL_BIT_MASK : Nat := (((USIZE_SIZE - 1) <<< 1) % USIZE_SIZE) >>> 1

/-- inv_bit_mask = !val_bit_mask (bitwise complement in usize). -/
def INV_BIT_MASK : Nat := (USIZE_SIZE - 1) - VAL_BIT_MASK

/-- enum ParsedValue -/
inductive ParsedValue where
  | Val (v : Nat)
  | Prime (v : Nat)
  | Sentinel
  | Empty
  deriving DecidableEq, Repr

/-- struct Value { raw, parsed } -/
structure Value where
  raw : Nat
  parsed : ParsedValue
  deriving DecidableEq, Repr

/-- Value::new: decode one raw machine word. -/
def Value.new (val : Nat) : Value :=
  let res :=
    if val = 0 then
      ParsedValue.Empty
    else
      let actual_val := val &&& VAL_BIT_MASK
      let flag := val &&& INV_BIT_MASK
      if flag ≠ 0 then ParsedValue.Prime actual_val
      else if actual_val = 1 then ParsedValue.Sentinel
      else ParsedValue.Val actual_val
  { raw := val, parsed := res }

/-- enum ModResult (Done carries the slot index; the source carries the
slot address base + index * entry_size, which determines and is determined
by the index). -/
inductive ModResult where
  | Replaced (v : Nat)
  | Fail (v : Nat)
  | Sentinel
  | NotFound
  | Done (idx : Nat)
  | TableFull
  deriving DecidableEq, Repr

/-- struct ModOutput { result, index } -/
structure ModOutput where
  result : ModResult
  index : Nat
  deriving DecidableEq, Repr

/-- enum ModOp<T> -/
inductive ModOp (V : Type) where
  | Insert (v : Nat) (a : V)
  | AttemptInsert (v : Nat) (a : V)
  | Sentinel
  | Empty
  deriving DecidableEq

/-- enum ResizeResult -/
inductive ResizeResult where
  | NoNeed
  | SwapFailed
  | Done
  deriving DecidableEq, Repr

/-- struct Chunk.  The entry array at `base` is modeled as the list
`entries` of (key word, value word) pairs of length `capacity`; the
attachment side array is the parallel list `attachment`.  `alloc_chunk`
produces zeroed memory, so fresh slots read (0, 0). -/
structure Chunk (V : Type) where
  capacity : Nat
  entries : List (Nat × Nat)
  occu_limit : Nat
  occupation : Nat
  attachment : List V
  deriving DecidableEq

/-- fn is_power_of_2 -/
def is_power_of_2 (x : Nat) : Bool :=
  x != 0 && (x &&& (x - 1)) == 0

/-- fn occupation_limit: (cap as f64 * 0.70) as usize.  For every power of
two below 2^52 the f64 product truncates to exactly cap * 7 / 10 (the
fractional part of 7 * 2^k / 10 is at least 1/5 while the rounding error
of the f64 constant 0.70 contributes less than 2^k * 2^-53), and the
source only ever calls this on power-of-two capacities. -/
def occupation_limit (cap : Nat) : Nat :=
  cap * 7 / 10

/-- Key word of entry i (atomic_load_relaxed of the key word). -/
def Chunk.keyAt (c : Chunk V) (i : Nat) : Nat :=
  (c.entries.getD i (EMPTY_KEY, 0)).1

/-- Value word of entry i (atomic_load_relaxed of the value word). -/
def Chunk.rawAt (c : Chunk V) (i : Nat) : Nat :=
  (c.entries.getD i (EMPTY_KEY, 0)).2

/-- Store a value word at entry i, keeping the key word. -/
def Chunk.setRaw (c : Chunk V) (i raw : Nat) : Chunk V :=
  { c with entries := c.entries.set i (c.keyAt i, raw) }

/-- Store both words of entry i (value CAS followed by the key store). -/
def Chunk.setEntry (c : Chunk V) (i k raw : Nat) : Chunk V :=
  { c with entries := c.entries.set i (k, raw) }

/-- Attachment::set at index i. -/
def Chunk.setAtt (c : Chunk V) (i : Nat) (a : V) : Chunk V :=
  { c with attachment := c.attachment.set i a }

/-- Attachment::erase at index i.  Both shipped attachment implementations
erase nothing: WordAttachment has an empty body and ObjectAttachment drops
the address value cast to a pointer, not the pointed-to object.  The model
therefore leaves the chunk unchanged. -/
def Chunk.eraseAtt (c : Chunk V) (_i : Nat) : Chunk V :=
  c

/-- Chunk::cap_mask -/
def Chunk.cap_mask (c : Chunk V) : Nat :=
  c.capacity - 1

/-- Chunk::alloc_chunk: a fresh zeroed chunk. -/
def Chunk.alloc_chunk (V : Type) [Inhabited V] (capacity : Nat) : Chunk V :=
  { capacity := capacity
    entries := List.replicate capacity (EMPTY_KEY, 0)
    occu_limit := occupation_limit capacity
    occupation := 0
    attachment := List.replicate capacity default }

/-- struct Table.  In the sequential model the two atomic chunk pointers
are the current chunk and an optional in-flight migration target;
`new_chunk` is none exactly when the pointer is null. -/
structure Table (V : Type) where
  chunk : Chunk V
  new_chunk : Option (Chunk V)
  deriving DecidableEq

/-- The probe loop of Table::get_from_chunk.  `fuel` is the remaining
iteration budget (the loop runs while counter < capacity, so it starts at
capacity); `idx` is the running probe cursor, masked at the top of every
iteration.  When the slot key equals the searched key but the value parses
Empty the source falls through to the k == EMPTY_KEY test, which then
holds exactly when the searched key is itself 0. -/
def get_from_chunk_loop (c : Chunk V) (key : Nat) : Nat → Nat → Value × Nat
  | 0, _ => (Value.new 0, 0)
  | fuel + 1, idx =>
    let i := idx &&& c.cap_mask
    let k := c.keyAt i
    if k = key then
      let val_res := Value.new (c.rawAt i)
      match val_res.parsed with
      | ParsedValue.Empty =>
        if k = EMPTY_KEY then (Value.new 0, 0)
        else get_from_chunk_loop c key fuel (i + 1)
      | _ => (val_res, i)
    else if k = EMPTY_KEY then (Value.new 0, 0)
    else get_from_chunk_loop c key fuel (i + 1)

/-- Table::get_from_chunk.  `h` is the pure hash function of the hasher
type parameter H. -/
def get_from_chunk (h : Nat → Nat) (c : Chunk V) (key : Nat) : Value × Nat :=
  get_from_chunk_loop c key c.capacity (h key)

/-- Result of the modify_entry loop: the ModOutput, the chunk state after
the call, and the number of loop iterations that executed (the final value
of the loop counter variable `count`, kept so the probe budget can be
stated). -/
structure ModRes (V : Type) where
  out : ModOutput
  chunk : Chunk V
  steps : Nat

/-- One more step was consumed before reaching state `r`. -/
def ModRes.tick (r : ModRes V) : ModRes V :=
  { r with steps := r.steps + 1 }

/-- n more steps were consumed before reaching state `r`. -/
def ModRes.addSteps (r : ModRes V) (n : Nat) : ModRes V :=
  { r with steps := r.steps + n }

/-- The probe loop of Table::modify_entry.  The loop runs while
count <= capacity, so it starts with fuel capacity + 1.  Every CAS is
modeled by the compare it performs against the current state; in the
sequential semantics a CAS whose expected value was just read from the
same state always succeeds, but the failing branches of the source are
kept.  For ModOp::Empty on a live value the source returns Replaced(v)
whether or not its tombstone CAS succeeded. -/
def modify_entry_loop (key : Nat) (op : ModOp V) :
    Nat → Nat → Option Nat → Chunk V → ModRes V
  | 0, _, _, c =>
    { out := { result := match op with
                 | ModOp.Insert _ _ => ModResult.TableFull
                 | ModOp.AttemptInsert _ _ => ModResult.TableFull
                 | _ => ModResult.NotFound
               index := 0 }
      chunk := c, steps := 0 }
  | fuel + 1, idx, replaced, c =>
    let i := idx &&& c.cap_mask
    let k := c.keyAt i
    if k = key then
      let val := Value.new (c.rawAt i)
      match val.parsed with
      | ParsedValue.Val v | ParsedValue.Prime v =>
        match op with
        | ModOp.Sentinel =>
          -- set_sentinel (a plain store), erase the attachment, Done(addr)
          { out := { result := ModResult.Done i, index := i }
            chunk := (c.setRaw i SENTINEL_VALUE).eraseAtt i, steps := 1 }
        | ModOp.Empty =>
          -- tombstone CAS; Replaced(v) is returned in either case
          if c.rawAt i = val.raw then
            { out := { result := ModResult.Replaced v, index := i }
              chunk := (c.setRaw i 0).eraseAtt i, steps := 1 }
          else
            { out := { result := ModResult.Replaced v, index := i }
              chunk := c, steps := 1 }
        | ModOp.Insert _ _ =>
          if c.rawAt i = val.raw then
            -- tombstoned; remember the replaced payload and keep probing
            (modify_entry_loop key op fuel (i + 1) (some v)
              ((c.setRaw i 0).eraseAtt i)).tick
          else
            -- the CAS conflicted; keep probing
            (modify_entry_loop key op fuel (i + 1) replaced c).tick
        | ModOp.AttemptInsert _ _ =>
          { out := { result := ModResult.Fail v, index := i }
            chunk := c, steps := 1 }
      | ParsedValue.Empty =>
        -- the key with an empty value: keep probing
        (modify_entry_loop key op fuel (i + 1) replaced c).tick
      | ParsedValue.Sentinel =>
        { out := { result := ModResult.Sentinel, index := i }
          chunk := c, steps := 1 }
    else if k = EMPTY_KEY then
      match op with
      | ModOp.Insert v a | ModOp.AttemptInsert v a =>
        -- put_in_empty(v): CAS the value word from 0, then write the
        -- attachment, then store the key word
        if c.rawAt i = 0 then
          { out := { result := match replaced with
                       | some r => ModResult.Replaced r
                       | none => ModResult.Done i
                     index := i }
            chunk := (c.setEntry i key v).setAtt i a, steps := 1 }
        else
          -- Fail(0): the slot was taken; keep probing
          (modify_entry_loop key op fuel (i + 1) replaced c).tick
      | ModOp.Sentinel =>
        -- put_in_empty(SENTINEL_VALUE) with no attachment
        if c.rawAt i = 0 then
          { out := { result := match replaced with
                       | some r => ModResult.Replaced r
                       | none => ModResult.Done i
                     index := i }
            chunk := c.setEntry i key SENTINEL_VALUE, steps := 1 }
        else
          (modify_entry_loop key op fuel (i + 1) replaced c).tick
      | ModOp.Empty =>
        { out := { result := ModResult.Fail 0, index := i }
          chunk := c, steps := 1 }
    else
      (modify_entry_loop key op fuel (i + 1) replaced c).tick

/-- Table::modify_entry. -/
def modify_entry (h : Nat → Nat) (c : Chunk V) (key : Nat) (op : ModOp V) :
    ModRes V :=
  modify_entry_loop key op (c.capacity + 1) (h key) none c

/-- The copy loop of Table::check_resize.  Scans the old chunk by index;
`fuel` is capacity - i.  Returns the final old chunk, the final new chunk
and effective_copy, or none when the source panics (TableFull or an
unreachable arm or a Prime in the old chunk) or retries a slot forever
(the old-slot CAS failing, impossible sequentially). -/
def migrate_loop [Inhabited V] (h : Nat → Nat) :
    Nat → Chunk V → Chunk V → Nat → Nat → Option (Chunk V × Chunk V × Nat)
  | 0, old_chunk, new_chunk, _, effective_copy =>
    some (old_chunk, new_chunk, effective_copy)
  | fuel + 1, old_chunk, new_chunk, i, effective_copy =>
    let key := old_chunk.keyAt i
    let value := Value.new (old_chunk.rawAt i)
    if key ≠ EMPTY_KEY then
      match value.parsed with
      | ParsedValue.Val _ =>
        let primed_val := value.raw ||| INV_BIT_MASK
        let attached_val := old_chunk.attachment.getD i default
        let ins := modify_entry h new_chunk key
          (ModOp.AttemptInsert primed_val attached_val)
        match ins.out.result with
        | ModResult.Done new_idx =>
          -- fence(SeqCst); CAS the old slot from its live raw to Sentinel
          if old_chunk.rawAt i = value.raw then
            let old1 := old_chunk.setRaw i SENTINEL_VALUE
            let stripped := primed_val &&& VAL_BIT_MASK
            -- CAS the new slot from the primed value to the stripped one
            if ins.chunk.rawAt new_idx = primed_val then
              migrate_loop h fuel (old1.eraseAtt i)
                (ins.chunk.setRaw new_idx stripped) (i + 1) (effective_copy + 1)
            else
              migrate_loop h fuel old1 ins.chunk (i + 1) effective_copy
          else
            none  -- the source retries this slot without advancing: the
                  -- CAS can only fail under concurrency, never here
        | ModResult.Fail _ =>
          -- a racing writer owns this key in the new chunk: skip
          migrate_loop h fuel old_chunk ins.chunk (i + 1) effective_copy
        | _ => none  -- Replaced/Sentinel/NotFound are unreachable!(),
                     -- TableFull is panic!()
      | ParsedValue.Prime _ => none  -- panic: Prime in old chunk
      | ParsedValue.Sentinel =>
        migrate_loop h fuel old_chunk new_chunk (i + 1) effective_copy
      | ParsedValue.Empty =>
        migrate_loop h fuel old_chunk new_chunk (i + 1) effective_copy
    else
      migrate_loop h fuel old_chunk new_chunk (i + 1) effective_copy

/-- Table::check_resize.  Sequentially the CAS that installs the fresh
chunk into the null new_chunk pointer always wins, so SwapFailed cannot
occur; after the copy the chunk pointer is swapped to the new chunk and
new_chunk is reset to null, so the returned table is again quiescent.
none models a panic inside the copy loop. -/
def Table.check_resize [Inhabited V] (h : Nat → Nat) (t : Table V) :
    Option (ResizeResult × Table V) :=
  let old_chunk := t.chunk
  if old_chunk.occupation ≤ old_chunk.occu_limit then
    some (ResizeResult.NoNeed, t)
  else
    let old_cap := old_chunk.capacity
    let mult := if old_cap < 2048 then 4 else 1
    let new_cap := old_cap <<< mult
    let new_chunk := Chunk.alloc_chunk V new_cap
    match migrate_loop h old_cap old_chunk new_chunk 0 0 with
    | none => none
    | some (_, new_fin, effective_copy) =>
      some (ResizeResult.Done,
        { chunk := { new_fin with occupation := new_fin.occupation + effective_copy }
          new_chunk := none })

/-- Table::insert with explicit retry fuel.  The source retries the whole
insert after check_resize reports Done or SwapFailed; sequentially one
retry always suffices (the freshly migrated chunk is under its occupancy
limit), so the fuel never runs out from the initial value 2.  none models
a panic (TableFull, the unreachable!() arm, or a panic inside resize). -/
def Table.insert_fueled [Inhabited V] (h : Nat → Nat) :
    Nat → Table V → Nat → Nat → V → Option (Option Nat × Table V)
  | 0, _, _, _, _ => none
  | fuel + 1, t, key, value, attached_val =>
    match t.new_chunk with
    | some nc =>
      -- copying: modify the new chunk
      let st := modify_entry h nc key
        (ModOp.Insert (value &&& VAL_BIT_MASK) attached_val)
      match st.out.result with
      | ModResult.Sentinel => some (none, { t with new_chunk := some st.chunk })
      | ModResult.TableFull => none
      | ModResult.NotFound => none
      | r =>
        let result : Option Nat := match r with
          | ModResult.Replaced v => some v
          | ModResult.Fail v => some v
          | _ => none
        -- fence(SeqCst); sentinelize the old chunk; bump occupation on
        -- the chunk that was modified (the new one)
        let st2 := modify_entry h t.chunk key ModOp.Sentinel
        some (result,
          { chunk := st2.chunk
            new_chunk := some { st.chunk with occupation := st.chunk.occupation + 1 } })
    | none =>
      match Table.check_resize h t with
      | none => none
      | some (ResizeResult.Done, t1) => Table.insert_fueled h fuel t1 key value attached_val
      | some (ResizeResult.SwapFailed, t1) => Table.insert_fueled h fuel t1 key value attached_val
      | some (ResizeResult.NoNeed, _) =>
        let st := modify_entry h t.chunk key
          (ModOp.Insert (value &&& VAL_BIT_MASK) attached_val)
        match st.out.result with
        | ModResult.Done _ =>
          some (none,
            { t with chunk := { st.chunk with occupation := st.chunk.occupation + 1 } })
        | ModResult.Replaced v =>
          some (some v,
            { t with chunk := { st.chunk with occupation := st.chunk.occupation + 1 } })
        | ModResult.Fail v =>
          some (some v,
            { t with chunk := { st.chunk with occupation := st.chunk.occupation + 1 } })
        | ModResult.TableFull => none     -- panic: insertion is too fast
        | ModResult.Sentinel => some (none, { t with chunk := st.chunk })
        | ModResult.NotFound => none      -- unreachable!()

/-- Table::insert. -/
def Table.insert [Inhabited V] (h : Nat → Nat) (t : Table V)
    (key value : Nat) (attached_val : V) : Option (Option Nat × Table V) :=
  Table.insert_fueled h 2 t key value attached_val

/-- Table::get.  On a Sentinel the source reloads new_chunk and probes it;
if that probe hits a Sentinel again it loops forever in the sequential
model (the state cannot change), modeled as none.  When new_chunk is null
it returns None. -/
def Table.get [Inhabited V] (h : Nat → Nat) (t : Table V) (key : Nat)
    (read_attachment : Bool) : Option (Nat × Option V) :=
  let r := get_from_chunk h t.chunk key
  match r.1.parsed with
  | ParsedValue.Prime v | ParsedValue.Val v =>
    some (v, if read_attachment then some (t.chunk.attachment.getD r.2 default) else none)
  | ParsedValue.Empty => none
  | ParsedValue.Sentinel =>
    match t.new_chunk with
    | none => none
    | some nc =>
      let r2 := get_from_chunk h nc key
      match r2.1.parsed with
      | ParsedValue.Prime v | ParsedValue.Val v =>
        some (v, if read_attachment then some (nc.attachment.getD r2.2 default) else none)
      | ParsedValue.Empty => none
      | ParsedValue.Sentinel => none

/-- Table::remove.  none models the panic on a first-probe TableFull.  In
the non-copying branch, when the first probe reports NotFound the source
probes the (same) current chunk again and, on success, reads the
attachment through the null new_chunk reference; for the shipped
attachments this reads nothing, and sequentially that branch is
unreachable, modeled by returning default there. -/
def Table.remove [Inhabited V] (h : Nat → Nat) (t : Table V) (key : Nat) :
    Option (Option (Nat × V) × Table V) :=
  match t.new_chunk with
  | some nc =>
    let st := modify_entry h nc key ModOp.Empty
    match st.out.result with
    | ModResult.Done v | ModResult.Replaced v =>
      -- fence(SeqCst); sentinelize the old chunk
      let st2 := modify_entry h t.chunk key ModOp.Sentinel
      some (some (v, st.chunk.attachment.getD st.out.index default),
        { chunk := st2.chunk, new_chunk := some st.chunk })
    | ModResult.NotFound =>
      -- the entry may not have migrated yet: remove from the old chunk,
      -- but report the new chunk attachment at the first probe index
      let st2 := modify_entry h t.chunk key ModOp.Empty
      match st2.out.result with
      | ModResult.Done v | ModResult.Replaced v =>
        some (some (v, st.chunk.attachment.getD st.out.index default),
          { chunk := st2.chunk, new_chunk := some st.chunk })
      | _ =>
        some (none, { chunk := st2.chunk, new_chunk := some st.chunk })
    | ModResult.TableFull => none
    | _ => some (none, { t with new_chunk := some st.chunk })
  | none =>
    let st := modify_entry h t.chunk key ModOp.Empty
    match st.out.result with
    | ModResult.Done v | ModResult.Replaced v =>
      some (some (v, st.chunk.attachment.getD st.out.index default),
        { t with chunk := st.chunk })
    | ModResult.NotFound =>
      let st2 := modify_entry h st.chunk key ModOp.Empty
      match st2.out.result with
      | ModResult.Done v | ModResult.Replaced v =>
        some (some (v, default), { t with chunk := st2.chunk })
      | _ => some (none, { t with chunk := st2.chunk })
    | ModResult.TableFull => none
    | _ => some (none, { t with chunk := st.chunk })

/-- Table::with_capacity; the InvalidCapacity panic is modeled as none. -/
def Table.with_capacity (V : Type) [Inhabited V] (cap : Nat) : Option (Table V) :=
  if is_power_of_2 cap then
    some { chunk := Chunk.alloc_chunk V cap, new_chunk := none }
  else
    none

/-- The scan loop of Table::all_from_chunk (idx is masked each iteration;
it starts at 0 and the loop runs capacity times). -/
def all_from_chunk_loop [Inhabited V] (c : Chunk V) :
    Nat → Nat → List (Nat × Nat × V)
  | 0, _ => []
  | fuel + 1, idx =>
    let i := idx &&& c.cap_mask
    let k := c.keyAt i
    let here :=
      if k ≠ EMPTY_KEY then
        match (Value.new (c.rawAt i)).parsed with
        | ParsedValue.Val v | ParsedValue.Prime v =>
          [(k, v, c.attachment.getD i default)]
        | _ => []
      else []
    here ++ all_from_chunk_loop c fuel (i + 1)

/-- Table::all_from_chunk. -/
def all_from_chunk [Inhabited V] (c : Chunk V) : List (Nat × Nat × V) :=
  all_from_chunk_loop c c.capacity 0

/-- Table::entries.  The source loads both chunk pointers, dereferences
new_chunk unconditionally, and appends all_from_chunk of the new chunk
whenever old_chunk_ref != new_chunk_ref.  When no migration is in flight
new_chunk is null, the inequality holds (non-null vs null), and the scan
reads through the null reference: undefined behavior (a crash), modeled
as none.  During a migration the two pointers always differ, so both
chunks are scanned. -/
def Table.entries [Inhabited V] (t : Table V) :
    Option (List (Nat × Nat × V)) :=
  match t.new_chunk with
  | none => none
  | some nc => some (all_from_chunk t.chunk ++ all_from_chunk nc)

/-- const NUM_KEY_FIX: usize = 5 -/
def NUM_KEY_FIX : Nat := 5

/-- The key the typed facades present to the core: key + NUM_KEY_FIX in
usize arithmetic (release-mode addition wraps mod 2^64). -/
def fix_key (key : Nat) : Nat :=
  (key + NUM_KEY_FIX) % USIZE_SIZE

/-- struct WordMap (V = (), WordAttachment). -/
structure WordMap where
  table : Table Unit

/-- WordMap::with_capacity -/
def WordMap.with_capacity (cap : Nat) : Option WordMap :=
  (Table.with_capacity Unit cap).map (fun t => { table := t })

/-- WordMap::get -/
def WordMap.get (h : Nat → Nat) (m : WordMap) (key : Nat) : Option Nat :=
  (Table.get h m.table (fix_key key) false).map (fun v => v.1)

/-- WordMap::insert (returns the resulting map as well; the outer Option
models a panic). -/
def WordMap.insert (h : Nat → Nat) (m : WordMap) (key value : Nat) :
    Option (Option Unit × WordMap) :=
  (Table.insert h m.table (fix_key key) value ()).map
    (fun r => (r.1.map (fun _ => ()), { table := r.2 }))

/-- WordMap::remove -/
def WordMap.remove (h : Nat → Nat) (m : WordMap) (key : Nat) :
    Option (Option Nat × WordMap) :=
  (Table.remove h m.table (fix_key key)).map
    (fun r => (r.1.map (fun v => v.1), { table := r.2 }))

/-- WordMap::entries: un-offset the stored keys by NUM_KEY_FIX. -/
def WordMap.entries (m : WordMap) : Option (List (Nat × Nat)) :=
  (Table.entries m.table).map
    (List.map (fun e => (e.1 - NUM_KEY_FIX, e.2.1)))

/-- WordMap::contains -/
def WordMap.contains (h : Nat → Nat) (m : WordMap) (key : Nat) : Bool :=
  (WordMap.get h m key).isSome

/-- struct ObjectMap<V> (ObjectAttachment). -/
structure ObjectMap (V : Type) where
  table : Table V

/-- ObjectMap::with_capacity -/
def ObjectMap.with_capacity (V : Type) [Inhabited V] (cap : Nat) :
    Option (ObjectMap V) :=
  (Table.with_capacity V cap).map (fun t => { table := t })

/-- ObjectMap::get: self.table.get(key + 5, true).map(|v| v.1.unwrap()).
The unwrap panics exactly when the attachment component is none while the
outer value is present; binding through the inner Option makes that case
observable as a none that the plain map would have turned into a panic. -/
def ObjectMap.get [Inhabited V] (h : Nat → Nat) (m : ObjectMap V) (key : Nat) :
    Option V :=
  (Table.get h m.table (fix_key key) true).bind (fun v => v.2)

/-- ObjectMap::insert: self.table.insert(key + 5, !0, value). -/
def ObjectMap.insert [Inhabited V] (h : Nat → Nat) (m : ObjectMap V)
    (key : Nat) (value : V) : Option (Option Unit × ObjectMap V) :=
  (Table.insert h m.table (fix_key key) (USIZE_SIZE - 1) value).map
    (fun r => (r.1.map (fun _ => ()), { table := r.2 }))

/-! Specification-side notions used to state and prove the claims: the
probe-sequence geometry, the well-formedness invariant of a quiescent
chunk, the key-to-payload abstraction of a chunk, and the reachable
states of a sequentially used table. -/

/-- The slot index probed at step t when searching for `key`: the probe
cursor starts at the hash and is masked (reduced mod the power-of-two
capacity) at the top of every iteration. -/
def slotIdx (h : Nat → Nat) (cap key t : Nat) : Nat :=
  (h key + t) % cap

/-- The probe step at which slot i is reached when searching for key. -/
def distTo (h : Nat → Nat) (cap key i : Nat) : Nat :=
  (i + cap - h key % cap) % cap

/-- The probe loops skip over slot i without returning and without
changing the chunk exactly when the slot holds the searched key with an
empty (tombstoned) value, or a different, non-empty key. -/
def canSkip (c : Chunk V) (key i : Nat) : Prop :=
  (c.keyAt i = key → c.rawAt i = 0) ∧ (c.keyAt i ≠ key → c.keyAt i ≠ 0)

/-- Least t < n satisfying p (none when there is none). -/
def leastSuch (p : Nat → Prop) [DecidablePred p] : Nat → Option Nat
  | 0 => none
  | n + 1 =>
    match leastSuch p n with
    | some t => some t
    | none => if p n then some n else none

/-- Number of slots of the chunk whose key word is non-zero (the slots
ever claimed). -/
def countKeys (c : Chunk V) : Nat :=
  c.entries.countP (fun e => e.1 != 0)

/-- The raw value stored live for `key`: the value word of the slot on
the probe sequence of `key` that holds `key` with a non-tombstone value
word.  In a well-formed chunk there is at most one such slot. -/
def liveRaw (h : Nat → Nat) (c : Chunk V) (key : Nat) : Option Nat :=
  (leastSuch
      (fun t => c.keyAt (slotIdx h c.capacity key t) = key ∧
        c.rawAt (slotIdx h c.capacity key t) ≠ 0)
      c.capacity).map
    (fun t => c.rawAt (slotIdx h c.capacity key t))

/-- Well-formedness of a quiescent chunk (invariants the sequential
execution maintains between operations). -/
structure WF (h : Nat → Nat) (c : Chunk V) : Prop where
  entries_len : c.entries.length = c.capacity
  att_len : c.attachment.length = c.capacity
  cap_pow : ∃ m, c.capacity = 2 ^ m
  limit_eq : c.occu_limit = occupation_limit c.capacity
  key0 : ∀ i < c.capacity, c.keyAt i = 0 → c.rawAt i = 0
  no_prime : ∀ i < c.capacity, c.rawAt i < 2 ^ 63
  uniq : ∀ i < c.capacity, ∀ j < c.capacity, i ≠ j →
    c.keyAt i ≠ 0 → c.keyAt i = c.keyAt j → c.rawAt i = 0 ∨ c.rawAt j = 0
  findable : ∀ i < c.capacity, c.keyAt i ≠ 0 → c.rawAt i ≠ 0 →
    ∀ t < distTo h c.capacity (c.keyAt i) i,
      c.keyAt (slotIdx h c.capacity (c.keyAt i) t) ≠ 0

/-- No slot of the chunk stores the sentinel word.  Holds in every
reachable quiescent chunk when callers only store valid payloads. -/
def NoSent (c : Chunk V) : Prop :=
  ∀ i < c.capacity, c.rawAt i ≠ SENTINEL_VALUE

/-- The occupation counter counts the claimed (non-zero-key) slots. -/
def OccCnt (c : Chunk V) : Prop :=
  c.occupation = countKeys c

/-- Invariant of a reachable quiescent table state. -/
structure Inv (h : Nat → Nat) (t : Table V) : Prop where
  wf : WF h t.chunk
  occ : OccCnt t.chunk
  nosent : NoSent t.chunk
  quiescent : t.new_chunk = none

/-- Tables reachable by a sequential sequence of operations from
with_capacity, inserting only non-zero keys and valid payloads
(payloads below 2^63 and distinct from the empty and sentinel words). -/
inductive Reach [Inhabited V] (h : Nat → Nat) : Table V → Prop where
  | init : ∀ cap t, Table.with_capacity V cap = some t → Reach h t
  | insert : ∀ t key value a r t', Reach h t → key ≠ 0 →
      2 ≤ value → value < 2 ^ 63 →
      Table.insert h t key value a = some (r, t') → Reach h t'
  | remove : ∀ t key r t', Reach h t →
      Table.remove h t key = some (r, t') → Reach h t'

/-- Run a list of (key, value, attachment) inserts left to right;
none when some insert panics. -/
def runInserts [Inhabited V] (h : Nat → Nat) (t : Table V) :
    List (Nat × Nat × V) → Option (Table V)
  | [] => some t
  | op :: rest =>
    match Table.insert h t op.1 op.2.1 op.2.2 with
    | none => none
    | some (_, t1) => runInserts h t1 rest

/-- The value of the last insert for `key` in the list, if any. -/
def lastInsertOf (ops : List (Nat × Nat × V)) (key : Nat) : Option Nat :=
  (ops.filter (fun o => o.1 == key)).getLast?.map (fun o => o.2.1)

/-- Concrete chunk used to witness claims about the probe budget: one
slot occupied by an unrelated key. -/
def chunkOneFull : Chunk Unit :=
  { capacity := 1, entries := [(7, 9)], occu_limit := 0,
    occupation := 1, attachment := [()] }

/-- Concrete chunk holding a sentinel for key 7 at its probed slot. -/
def chunkSent : Chunk Unit :=
  { capacity := 2, entries := [(0, 0), (7, 1)], occu_limit := 1,
    occupation := 1, attachment := [(), ()] }

/-- The table around chunkSent. -/
def tableSent : Table Unit :=
  { chunk := chunkSent, new_chunk := none }

/-- Concrete over-occupied capacity-1 chunk that triggers a resize. -/
def chunkGrow : Chunk Unit :=
  { capacity := 1, entries := [(7, 9)], occu_limit := 0,
    occupation := 1, attachment := [()] }

/-- The table around chunkGrow. -/
def tableGrow : Table Unit :=
  { chunk := chunkGrow, new_chunk := none }

/-- The chunk produced by resizing tableGrow (capacity 16, the entry
migrated to slot 7 = 7 mod 16 under the identity hash). -/
def chunkGrown : Chunk Unit :=
  { capacity := 16
    entries := [(0,0),(0,0),(0,0),(0,0),(0,0),(0,0),(0,0),(7,9),
                (0,0),(0,0),(0,0),(0,0),(0,0),(0,0),(0,0),(0,0)]
    occu_limit := 11, occupation := 1
    attachment := [(),(),(),(),(),(),(),(),(),(),(),(),(),(),(),()] }

/-- A fresh capacity-2 word table. -/
def tableTwo : Table Unit :=
  { chunk := Chunk.alloc_chunk Unit 2, new_chunk := none }

/-- tableTwo after insert(5, 1): the sentinel word is stored at slot 1. -/
def tableTwoSent : Table Unit :=
  { chunk := { capacity := 2, entries := [(0, 0), (5, 1)], occu_limit := 1,
               occupation := 1, attachment := [(), ()] }
    new_chunk := none }

/-- A simple concrete table with key 7 live with value 9 at slot 1. -/
def tableLive : Table Unit :=
  { chunk := { capacity := 2, entries := [(0, 0), (7, 9)], occu_limit := 1,
               occupation := 1, attachment := [(), ()] }
    new_chunk := none }

/-! Basic facts about the constants and the value codec. -/

theorem VAL_BIT_MASK_eq : VAL_BIT_MASK = 2 ^ 63 - 1 := by decide

theorem INV_BIT_MASK_eq : INV_BIT_MASK = 2 ^ 63 := by decide

theorem Value.new_raw (x : Nat) : (Value.new x).raw = x := rfl

theorem Value.new_parsed (x : Nat) :
    (Value.new x).parsed =
      if x = 0 then ParsedValue.Empty
      else if x &&& INV_BIT_MASK ≠ 0 then ParsedValue.Prime (x &&& VAL_BIT_MASK)
      else if x &&& VAL_BIT_MASK = 1 then ParsedValue.Sentinel
      else ParsedValue.Val (x &&& VAL_BIT_MASK) := rfl

theorem and_val_mask (x : Nat) : x &&& VAL_BIT_MASK = x % 2 ^ 63 := by
  rw [VAL_BIT_MASK_eq, Nat.and_pow_two_sub_one_eq_mod]

theorem and_val_mask_of_lt {x : Nat} (hx : x < 2 ^ 63) :
    x &&& VAL_BIT_MASK = x := by
  rw [and_val_mask, Nat.mod_eq_of_lt hx]

theorem and_val_mask_lt (x : Nat) : x &&& VAL_BIT_MASK < 2 ^ 63 := by
  rw [and_val_mask]; exact Nat.mod_lt _ (by norm_num)

theorem and_inv_mask_of_lt {x : Nat} (hx : x < 2 ^ 63) :
    x &&& INV_BIT_MASK = 0 := by
  rw [INV_BIT_MASK_eq, Nat.and_two_pow, Nat.testBit_lt_two_pow hx]
  rfl

theorem and_inv_mask_ne_zero {x : Nat} (h63 : 2 ^ 63 ≤ x) (h64 : x < 2 ^ 64) :
    x &&& INV_BIT_MASK ≠ 0 := by
  have hbit : x.testBit 63 = true := by
    rw [Nat.testBit_to_div_mod, decide_eq_true_eq]
    have hp : (2 : Nat) ^ 63 = 9223372036854775808 := by norm_num
    have hq : (2 : Nat) ^ 64 = 18446744073709551616 := by norm_num
    rw [hp] at h63 ⊢
    rw [hq] at h64
    omega
  rw [INV_BIT_MASK_eq, Nat.and_two_pow, hbit]
  simp

/-- Decoding a quiescent (high-bit-clear) word. -/
theorem Value.new_parsed_lo {x : Nat} (hx : x < 2 ^ 63) :
    (Value.new x).parsed =
      if x = 0 then ParsedValue.Empty
      else if x = 1 then ParsedValue.Sentinel
      else ParsedValue.Val x := by
  rw [Value.new_parsed, and_inv_mask_of_lt hx, and_val_mask_of_lt hx]
  simp

theorem Value.new_parsed_val {x : Nat} (hx : x < 2 ^ 63) (h0 : x ≠ 0)
    (h1 : x ≠ 1) : (Value.new x).parsed = ParsedValue.Val x := by
  rw [Value.new_parsed_lo hx]; simp [h0, h1]

/-- Setting a bit above a number adds the corresponding power of two. -/
theorem or_two_pow_eq_add : ∀ (n x : Nat), x < 2 ^ n → x ||| 2 ^ n = x + 2 ^ n := by
  intro n
  induction n with
  | zero =>
    intro x hx
    interval_cases x
    rfl
  | succ n ih =>
    intro x hx
    have hdiv : (x ||| 2 ^ (n + 1)) / 2 = x / 2 + 2 ^ n := by
      rw [Nat.or_div_two]
      have e : 2 ^ (n + 1) / 2 = 2 ^ n := by
        rw [Nat.pow_succ]; omega
      rw [e]
      exact ih (x / 2) (by rw [Nat.pow_succ] at hx; omega)
    have hmod : (x ||| 2 ^ (n + 1)) % 2 = x % 2 := by
      have hy : 2 ^ (n + 1) % 2 = 0 := by
        rw [Nat.pow_succ]; omega
      rcases Nat.mod_two_eq_zero_or_one x with h | h
      · have : ¬ ((x ||| 2 ^ (n + 1)) % 2 = 1) := by
          rw [Nat.or_mod_two_eq_one]
          omega
        have h2 := Nat.mod_two_eq_zero_or_one (x ||| 2 ^ (n + 1))
        omega
      · have : (x ||| 2 ^ (n + 1)) % 2 = 1 := by
          rw [Nat.or_mod_two_eq_one]
          left; exact h
        omega
    have hc := Nat.div_add_mod (x ||| 2 ^ (n + 1)) 2
    have hx2 := Nat.div_add_mod x 2
    have hpow : 2 ^ (n + 1) = 2 ^ n * 2 := Nat.pow_succ 2 n
    omega

theorem or_hi_ge {x : Nat} (hx : x < 2 ^ 63) : 2 ^ 63 ≤ x ||| 2 ^ 63 := by
  rw [or_two_pow_eq_add 63 x hx]; omega

theorem or_hi_lt {x : Nat} (hx : x < 2 ^ 63) : x ||| 2 ^ 63 < 2 ^ 64 := by
  rw [or_two_pow_eq_add 63 x hx]
  have : (2 : Nat) ^ 64 = 2 ^ 63 + 2 ^ 63 := by
    rw [show (64 : Nat) = 63 + 1 from rfl, Nat.pow_succ]; omega
  omega

theorem or_hi_and_val {x : Nat} (hx : x < 2 ^ 63) :
    (x ||| 2 ^ 63) &&& VAL_BIT_MASK = x := by
  rw [or_two_pow_eq_add 63 x hx, and_val_mask, Nat.add_mod_right,
    Nat.mod_eq_of_lt hx]

/-- Decoding a primed word recovers the payload. -/
theorem Value.new_parsed_primed {x : Nat} (hx : x < 2 ^ 63) :
    (Value.new (x ||| INV_BIT_MASK)).parsed = ParsedValue.Prime x := by
  rw [INV_BIT_MASK_eq, Value.new_parsed]
  have hne : x ||| 2 ^ 63 ≠ 0 := by
    have := or_hi_ge hx
    positivity
  have hflag : (x ||| 2 ^ 63) &&& INV_BIT_MASK ≠ 0 :=
    and_inv_mask_ne_zero (or_hi_ge hx) (or_hi_lt hx)
  rw [if_neg hne, if_pos hflag, or_hi_and_val hx]

/-! Powers of two. -/

theorem and_pred_eq_zero_pow2 :
    ∀ x, x ≠ 0 → x &&& (x - 1) = 0 → ∃ k, x = 2 ^ k := by
  intro x
  induction x using Nat.strong_induction_on with
  | _ x ih =>
    intro hx h0
    rcases Nat.even_or_odd x with he | ho
    · obtain ⟨y, hy⟩ := he
      have hy2 : x = 2 * y := by omega
      have hyne : y ≠ 0 := by omega
      have hdiv : (x &&& (x - 1)) / 2 = y &&& (y - 1) := by
        rw [Nat.and_div_two]
        have e1 : x / 2 = y := by omega
        have e2 : (x - 1) / 2 = y - 1 := by omega
        rw [e1, e2]
      have hzero : y &&& (y - 1) = 0 := by
        rw [← hdiv, h0]
      obtain ⟨k, hk⟩ := ih y (by omega) hyne hzero
      exact ⟨k + 1, by rw [hy2, hk, Nat.pow_succ]; ring⟩
    · obtain ⟨y, hy⟩ := ho
      by_cases hy0 : y = 0
      · exact ⟨0, by omega⟩
      · exfalso
        have hdiv : (x &&& (x - 1)) / 2 = y := by
          rw [Nat.and_div_two]
          have e1 : x / 2 = y := by omega
          have e2 : (x - 1) / 2 = y := by omega
          rw [e1, e2, Nat.and_self]
        rw [h0] at hdiv
        simp at hdiv
        exact hy0 hdiv.symm

theorem is_power_of_2_iff (x : Nat) :
    is_power_of_2 x = true ↔ ∃ k, x = 2 ^ k := by
  constructor
  · intro h
    simp only [is_power_of_2, Bool.and_eq_true, bne_iff_ne, ne_eq,
      beq_iff_eq] at h
    exact and_pred_eq_zero_pow2 x h.1 h.2
  · rintro ⟨k, rfl⟩
    simp only [is_power_of_2, Bool.and_eq_true, bne_iff_ne, ne_eq,
      beq_iff_eq]
    refine ⟨by positivity, ?_⟩
    · rw [Nat.and_pow_two_sub_one_eq_mod, Nat.mod_self]

/-! Least-index searches. -/

theorem leastSuch_none_all {p : Nat → Prop} [DecidablePred p] :
    ∀ {n : Nat}, leastSuch p n = none → ∀ s < n, ¬ p s := by
  intro n
  induction n with
  | zero => intro _ s hs; omega
  | succ n ih =>
    intro hn s hs
    rw [leastSuch] at hn
    cases hm : leastSuch p n with
    | some u => rw [hm] at hn; cases hn
    | none =>
      rw [hm] at hn
      by_cases hp : p n
      · rw [if_pos hp] at hn; cases hn
      · rcases Nat.lt_succ_iff_lt_or_eq.1 hs with h | h
        · exact ih hm s h
        · subst h; exact hp

theorem leastSuch_some {p : Nat → Prop} [DecidablePred p] :
    ∀ {n t : Nat}, leastSuch p n = some t → t < n ∧ p t ∧ ∀ s < t, ¬ p s := by
  intro n
  induction n with
  | zero => intro t ht; simp [leastSuch] at ht
  | succ n ih =>
    intro t ht
    rw [leastSuch] at ht
    cases hn : leastSuch p n with
    | some u =>
      rw [hn] at ht
      obtain ⟨h1, h2, h3⟩ := ih hn
      cases ht
      exact ⟨by omega, h2, h3⟩
    | none =>
      rw [hn] at ht
      by_cases hp : p n
      · rw [if_pos hp] at ht
        cases ht
        refine ⟨by omega, hp, ?_⟩
        intro s hs
        have := leastSuch_none_all hn
        exact this s hs
      · rw [if_neg hp] at ht
        cases ht

theorem leastSuch_isSome {p : Nat → Prop} [DecidablePred p] {n t : Nat}
    (ht : t < n) (hp : p t) : ∃ u, leastSuch p n = some u := by
  cases h : leastSuch p n with
  | some u => exact ⟨u, rfl⟩
  | none => exact absurd hp (leastSuch_none_all h t ht)

theorem leastSuch_congr {p q : Nat → Prop} [DecidablePred p] [DecidablePred q] :
    ∀ {n : Nat}, (∀ t < n, (p t ↔ q t)) → leastSuch p n = leastSuch q n := by
  intro n
  induction n with
  | zero => intro _; rfl
  | succ n ih =>
    intro hpq
    rw [leastSuch, leastSuch, ih (fun t ht => hpq t (by omega))]
    cases leastSuch q n with
    | some u => rfl
    | none =>
      by_cases hq : q n
      · rw [if_pos hq, if_pos ((hpq n (by omega)).2 hq)]
      · rw [if_neg hq, if_neg (fun hp => hq ((hpq n (by omega)).1 hp))]

/-- When exactly one index below n satisfies p, the least one is it. -/
theorem leastSuch_unique {p : Nat → Prop} [DecidablePred p] {n t : Nat}
    (ht : t < n) (hp : p t) (huniq : ∀ s < n, p s → s = t) :
    leastSuch p n = some t := by
  obtain ⟨u, hu⟩ := leastSuch_isSome ht hp
  obtain ⟨h1, h2, _⟩ := leastSuch_some hu
  rw [hu, huniq u h1 h2]

/-! Chunk accessors under the state updates. -/

@[simp] theorem Chunk.capacity_setEntry (c : Chunk V) (i k w : Nat) :
    (c.setEntry i k w).capacity = c.capacity := rfl

@[simp] theorem Chunk.capacity_setRaw (c : Chunk V) (i w : Nat) :
    (c.setRaw i w).capacity = c.capacity := rfl

@[simp] theorem Chunk.capacity_setAtt (c : Chunk V) (i : Nat) (a : V) :
    (c.setAtt i a).capacity = c.capacity := rfl

@[simp] theorem Chunk.limit_setEntry (c : Chunk V) (i k w : Nat) :
    (c.setEntry i k w).occu_limit = c.occu_limit := rfl

@[simp] theorem Chunk.limit_setRaw (c : Chunk V) (i w : Nat) :
    (c.setRaw i w).occu_limit = c.occu_limit := rfl

@[simp] theorem Chunk.limit_setAtt (c : Chunk V) (i : Nat) (a : V) :
    (c.setAtt i a).occu_limit = c.occu_limit := rfl

@[simp] theorem Chunk.occupation_setEntry (c : Chunk V) (i k w : Nat) :
    (c.setEntry i k w).occupation = c.occupation := rfl

@[simp] theorem Chunk.occupation_setRaw (c : Chunk V) (i w : Nat) :
    (c.setRaw i w).occupation = c.occupation := rfl

@[simp] theorem Chunk.occupation_setAtt (c : Chunk V) (i : Nat) (a : V) :
    (c.setAtt i a).occupation = c.occupation := rfl

@[simp] theorem Chunk.eraseAtt_eq (c : Chunk V) (i : Nat) :
    c.eraseAtt i = c := rfl

@[simp] theorem Chunk.entries_len_setEntry (c : Chunk V) (i k w : Nat) :
    (c.setEntry i k w).entries.length = c.entries.length := by
  simp [Chunk.setEntry]

@[simp] theorem Chunk.entries_len_setRaw (c : Chunk V) (i w : Nat) :
    (c.setRaw i w).entries.length = c.entries.length := by
  simp [Chunk.setRaw]

@[simp] theorem Chunk.entries_setAtt (c : Chunk V) (i : Nat) (a : V) :
    (c.setAtt i a).entries = c.entries := rfl

@[simp] theorem Chunk.attachment_setEntry (c : Chunk V) (i k w : Nat) :
    (c.setEntry i k w).attachment = c.attachment := rfl

@[simp] theorem Chunk.attachment_setRaw (c : Chunk V) (i w : Nat) :
    (c.setRaw i w).attachment = c.attachment := rfl

@[simp] theorem Chunk.att_len_setAtt (c : Chunk V) (i : Nat) (a : V) :
    (c.setAtt i a).attachment.length = c.attachment.length := by
  simp [Chunk.setAtt]

theorem Chunk.keyAt_setEntry_self (c : Chunk V) {i : Nat}
    (h : i < c.entries.length) (k w : Nat) :
    (c.setEntry i k w).keyAt i = k := by
  simp [Chunk.keyAt, Chunk.setEntry, List.getElem?_set_self h]

theorem Chunk.keyAt_setEntry_ne (c : Chunk V) {i j : Nat} (h : i ≠ j)
    (k w : Nat) : (c.setEntry i k w).keyAt j = c.keyAt j := by
  simp [Chunk.keyAt, Chunk.setEntry, List.getElem?_set_ne h]

theorem Chunk.rawAt_setEntry_self (c : Chunk V) {i : Nat}
    (h : i < c.entries.length) (k w : Nat) :
    (c.setEntry i k w).rawAt i = w := by
  simp [Chunk.rawAt, Chunk.setEntry, List.getElem?_set_self h]

theorem Chunk.rawAt_setEntry_ne (c : Chunk V) {i j : Nat} (h : i ≠ j)
    (k w : Nat) : (c.setEntry i k w).rawAt j = c.rawAt j := by
  simp [Chunk.rawAt, Chunk.setEntry, List.getElem?_set_ne h]

@[simp] theorem Chunk.keyAt_setRaw (c : Chunk V) (i w j : Nat) :
    (c.setRaw i w).keyAt j = c.keyAt j := by
  by_cases hij : i = j
  · subst hij
    by_cases hl : i < c.entries.length
    · simp [Chunk.keyAt, Chunk.setRaw, List.getElem?_set_self hl]
    · have hle : c.entries.length ≤ i := Nat.le_of_not_lt hl
      simp [Chunk.keyAt, Chunk.setRaw, List.set_eq_of_length_le hle]
  · simp [Chunk.keyAt, Chunk.setRaw, List.getElem?_set_ne hij]

theorem Chunk.rawAt_setRaw_self (c : Chunk V) {i : Nat}
    (h : i < c.entries.length) (w : Nat) : (c.setRaw i w).rawAt i = w := by
  simp [Chunk.rawAt, Chunk.setRaw, List.getElem?_set_self h]

theorem Chunk.rawAt_setRaw_ne (c : Chunk V) {i j : Nat} (h : i ≠ j) (w : Nat) :
    (c.setRaw i w).rawAt j = c.rawAt j := by
  simp [Chunk.rawAt, Chunk.setRaw, List.getElem?_set_ne h]

@[simp] theorem Chunk.keyAt_setAtt (c : Chunk V) (i : Nat) (a : V) (j : Nat) :
    (c.setAtt i a).keyAt j = c.keyAt j := rfl

@[simp] theorem Chunk.rawAt_setAtt (c : Chunk V) (i : Nat) (a : V) (j : Nat) :
    (c.setAtt i a).rawAt j = c.rawAt j := rfl

@[simp] theorem Chunk.alloc_capacity (V : Type) [Inhabited V] (n : Nat) :
    (Chunk.alloc_chunk V n).capacity = n := rfl

@[simp] theorem Chunk.alloc_keyAt (V : Type) [Inhabited V] (n i : Nat) :
    (Chunk.alloc_chunk V n).keyAt i = 0 := by
  simp only [Chunk.alloc_chunk, Chunk.keyAt, List.getD_eq_getElem?_getD,
    List.getElem?_replicate]
  by_cases hi : i < n <;> simp [hi, EMPTY_KEY]

@[simp] theorem Chunk.alloc_rawAt (V : Type) [Inhabited V] (n i : Nat) :
    (Chunk.alloc_chunk V n).rawAt i = 0 := by
  simp only [Chunk.alloc_chunk, Chunk.rawAt, List.getD_eq_getElem?_getD,
    List.getElem?_replicate]
  by_cases hi : i < n <;> simp [hi]

/-- setRaw on a freshly claimed slot collapses with the claim. -/
theorem Chunk.setEntry_setRaw (c : Chunk V) {i : Nat}
    (h : i < c.entries.length) (k w w2 : Nat) :
    (c.setEntry i k w).setRaw i w2 = c.setEntry i k w2 := by
  have hk : (c.setEntry i k w).keyAt i = k := Chunk.keyAt_setEntry_self c h k w
  simp only [Chunk.setRaw, hk]
  simp [Chunk.setEntry, List.set_set]

/-- setRaw and setAtt at different components commute. -/
theorem Chunk.setAtt_setRaw (c : Chunk V) (i : Nat) (a : V) (j w : Nat) :
    (c.setAtt i a).setRaw j w = (c.setRaw j w).setAtt i a := by
  simp [Chunk.setRaw, Chunk.setAtt, Chunk.keyAt]

/-! Counting claimed slots. -/

theorem countP_set_iff {α : Type} (p : α → Bool) :
    ∀ (l : List α) (i : Nat) (a : α) (hi : i < l.length),
      (p a = p (l.get ⟨i, hi⟩)) →
      (l.set i a).countP p = l.countP p := by
  intro l
  induction l with
  | nil => intro i a hi; simp at hi
  | cons x xs ih =>
    intro i a hi hiff
    cases i with
    | zero =>
      have hiff2 : p a = p x := hiff
      simp only [List.set]
      rw [List.countP_cons, List.countP_cons, hiff2]
    | succ n =>
      have hiff2 : p a = p (xs.get ⟨n, by simpa using hi⟩) := hiff
      simp only [List.set]
      rw [List.countP_cons, List.countP_cons,
        ih n a (by simpa using hi) hiff2]

theorem countP_set_new {α : Type} (p : α → Bool) :
    ∀ (l : List α) (i : Nat) (a : α) (hi : i < l.length),
      (p (l.get ⟨i, hi⟩) = false) → (p a = true) →
      (l.set i a).countP p = l.countP p + 1 := by
  intro l
  induction l with
  | nil => intro i a hi; simp at hi
  | cons x xs ih =>
    intro i a hi hold hnew
    cases i with
    | zero =>
      have hold2 : p x = false := hold
      simp only [List.set]
      rw [List.countP_cons, List.countP_cons, hold2, hnew]
      simp
    | succ n =>
      have hold2 : p (xs.get ⟨n, by simpa using hi⟩) = false := hold
      simp only [List.set]
      rw [List.countP_cons, List.countP_cons,
        ih n a (by simpa using hi) hold2 hnew]
      omega

theorem Chunk.get_entries_eq (c : Chunk V) {i : Nat} (h : i < c.entries.length) :
    c.entries.get ⟨i, h⟩ = (c.keyAt i, c.rawAt i) := by
  simp [Chunk.keyAt, Chunk.rawAt, List.getD_eq_getElem?_getD,
    List.getElem?_eq_getElem h]

theorem countKeys_setRaw (c : Chunk V) (i w : Nat) :
    countKeys (c.setRaw i w) = countKeys c := by
  by_cases hl : i < c.entries.length
  · unfold countKeys Chunk.setRaw
    apply countP_set_iff _ _ _ _ hl
    rw [Chunk.get_entries_eq c hl]
  · have hle : c.entries.length ≤ i := Nat.le_of_not_lt hl
    simp [countKeys, Chunk.setRaw, List.set_eq_of_length_le hle]

theorem countKeys_setAtt (c : Chunk V) (i : Nat) (a : V) :
    countKeys (c.setAtt i a) = countKeys c := rfl

theorem countKeys_setEntry_new (c : Chunk V) {i : Nat}
    (hl : i < c.entries.length) (hold : c.keyAt i = 0) {k : Nat} (hk : k ≠ 0)
    (w : Nat) : countKeys (c.setEntry i k w) = countKeys c + 1 := by
  unfold countKeys Chunk.setEntry
  apply countP_set_new _ _ _ _ hl
  · rw [Chunk.get_entries_eq c hl]
    simp [hold]
  · simp [hk]

theorem countKeys_le_length (c : Chunk V) : countKeys c ≤ c.entries.length :=
  List.countP_le_length _

theorem exists_empty_of_count_lt (c : Chunk V)
    (h : countKeys c < c.entries.length) :
    ∃ i < c.entries.length, c.keyAt i = 0 := by
  by_contra hno
  push_neg at hno
  have : countKeys c = c.entries.length := by
    unfold countKeys
    rw [List.countP_eq_length]
    intro a ha
    obtain ⟨i, hi, rfl⟩ := List.mem_iff_getElem.1 ha
    have hk : c.keyAt i ≠ 0 := hno i hi
    have : c.keyAt i = (c.entries[i]).1 := by
      simp [Chunk.keyAt, List.getD_eq_getElem?_getD, List.getElem?_eq_getElem hi]
    simp only [bne_iff_ne, ne_eq]
    rw [this] at hk
    exact hk
  omega

theorem countKeys_alloc (V : Type) [Inhabited V] (n : Nat) :
    countKeys (Chunk.alloc_chunk V n) = 0 := by
  unfold countKeys Chunk.alloc_chunk
  rw [List.countP_eq_zero]
  intro a ha
  have he := List.eq_of_mem_replicate ha
  subst he
  simp [EMPTY_KEY]

/-! Probe-sequence geometry. -/

theorem slotIdx_lt {cap : Nat} (hn : 0 < cap) (h : Nat → Nat) (key t : Nat) :
    slotIdx h cap key t < cap :=
  Nat.mod_lt _ hn

theorem distTo_lt {cap : Nat} (hn : 0 < cap) (h : Nat → Nat) (key i : Nat) :
    distTo h cap key i < cap :=
  Nat.mod_lt _ hn

theorem add_mod_inj {n a t1 t2 : Nat} (h1 : t1 < n) (h2 : t2 < n)
    (he : (a + t1) % n = (a + t2) % n) : t1 = t2 := by
  have hmod : t1 % n = t2 % n := Nat.ModEq.add_left_cancel' a he
  rw [Nat.mod_eq_of_lt h1, Nat.mod_eq_of_lt h2] at hmod
  exact hmod

theorem slotIdx_inj {cap : Nat} (h : Nat → Nat) (key : Nat) {t1 t2 : Nat}
    (h1 : t1 < cap) (h2 : t2 < cap)
    (he : slotIdx h cap key t1 = slotIdx h cap key t2) : t1 = t2 :=
  add_mod_inj h1 h2 he

theorem slotIdx_distTo {cap : Nat} (hn : 0 < cap) (h : Nat → Nat) (key : Nat)
    {i : Nat} (hi : i < cap) : slotIdx h cap key (distTo h cap key i) = i := by
  unfold slotIdx distTo
  have hdm := Nat.div_add_mod (h key) cap
  have hr : h key % cap < cap := Nat.mod_lt _ hn
  have he : h key + (i + cap - h key % cap) = cap * (h key / cap) + cap + i := by
    omega
  calc (h key + (i + cap - h key % cap) % cap) % cap
      = (h key % cap + (i + cap - h key % cap) % cap % cap) % cap :=
        Nat.add_mod _ _ _
    _ = (h key % cap + (i + cap - h key % cap) % cap) % cap := by
        rw [Nat.mod_mod_of_dvd _ dvd_rfl]
    _ = (h key + (i + cap - h key % cap)) % cap := (Nat.add_mod _ _ _).symm
    _ = (cap * (h key / cap) + cap + i) % cap := by rw [he]
    _ = (i + cap + cap * (h key / cap)) % cap := by ring_nf
    _ = (i + cap) % cap := Nat.add_mul_mod_self_left _ _ _
    _ = i % cap := Nat.add_mod_right _ _
    _ = i := Nat.mod_eq_of_lt hi

theorem distTo_slotIdx {cap : Nat} (hn : 0 < cap) (h : Nat → Nat) (key : Nat)
    {t : Nat} (ht : t < cap) : distTo h cap key (slotIdx h cap key t) = t := by
  apply slotIdx_inj h key (distTo_lt hn h key _) ht
  exact slotIdx_distTo hn h key (slotIdx_lt hn h key t)

theorem exists_probe_step {cap : Nat} (hn : 0 < cap) (h : Nat → Nat)
    (key : Nat) {i : Nat} (hi : i < cap) :
    ∃ t < cap, slotIdx h cap key t = i :=
  ⟨distTo h cap key i, distTo_lt hn h key i, slotIdx_distTo hn h key hi⟩

/-! The probe walk: skipping over uninteresting slots. -/

theorem cap_pos {c : Chunk V} (hpow : ∃ m, c.capacity = 2 ^ m) :
    0 < c.capacity := by
  obtain ⟨m, hm⟩ := hpow
  rw [hm]; positivity

theorem and_cap_mask {c : Chunk V} (hpow : ∃ m, c.capacity = 2 ^ m)
    (idx : Nat) : idx &&& c.cap_mask = idx % c.capacity := by
  obtain ⟨m, hm⟩ := hpow
  rw [Chunk.cap_mask, hm, Nat.and_pow_two_sub_one_eq_mod]

theorem mod_succ_mod (idx cap : Nat) :
    (idx % cap + 1) % cap = (idx + 1) % cap := by
  rw [Nat.add_mod idx 1, Nat.add_mod (idx % cap) 1,
    Nat.mod_mod_of_dvd _ dvd_rfl]

@[simp] theorem ModRes.addSteps_zero (r : ModRes V) : r.addSteps 0 = r := rfl

theorem ModRes.tick_addSteps (r : ModRes V) (n : Nat) :
    (r.addSteps n).tick = r.addSteps (n + 1) := rfl

theorem ModRes.steps_addSteps (r : ModRes V) (n : Nat) :
    (r.addSteps n).steps = r.steps + n := rfl

@[simp] theorem ModRes.out_addSteps (r : ModRes V) (n : Nat) :
    (r.addSteps n).out = r.out := rfl

@[simp] theorem ModRes.chunk_addSteps (r : ModRes V) (n : Nat) :
    (r.addSteps n).chunk = r.chunk := rfl

theorem modify_loop_idx_mod {c : Chunk V} (hpow : ∃ m, c.capacity = 2 ^ m)
    (key : Nat) (op : ModOp V) (fuel idx : Nat) (repl : Option Nat) :
    modify_entry_loop key op fuel idx repl c =
      modify_entry_loop key op fuel (idx % c.capacity) repl c := by
  cases fuel with
  | zero => rfl
  | succ n =>
    simp only [modify_entry_loop]
    rw [and_cap_mask hpow, and_cap_mask hpow, Nat.mod_mod_of_dvd _ dvd_rfl]

theorem modify_loop_skip_one {c : Chunk V} (hpow : ∃ m, c.capacity = 2 ^ m)
    (key : Nat) (op : ModOp V) (fuel idx : Nat) (repl : Option Nat)
    (hskip : canSkip c key (idx % c.capacity)) :
    modify_entry_loop key op (fuel + 1) idx repl c =
      (modify_entry_loop key op fuel (idx % c.capacity + 1) repl c).tick := by
  obtain ⟨h1, h2⟩ := hskip
  simp only [modify_entry_loop]
  rw [and_cap_mask hpow]
  by_cases hk : c.keyAt (idx % c.capacity) = key
  · have hraw : c.rawAt (idx % c.capacity) = 0 := h1 hk
    rw [if_pos hk, hraw]
    rfl
  · have hk0 : c.keyAt (idx % c.capacity) ≠ EMPTY_KEY := h2 hk
    rw [if_neg hk, if_neg hk0]

theorem modify_loop_skip {c : Chunk V} (hpow : ∃ m, c.capacity = 2 ^ m)
    (key : Nat) (op : ModOp V) :
    ∀ (n fuel idx : Nat) (repl : Option Nat), n ≤ fuel →
      (∀ t < n, canSkip c key ((idx + t) % c.capacity)) →
      modify_entry_loop key op fuel idx repl c =
        (modify_entry_loop key op (fuel - n) (idx + n) repl c).addSteps n := by
  intro n
  induction n with
  | zero => intro fuel idx repl _ _; simp
  | succ n ih =>
    intro fuel idx repl hn hsk
    obtain ⟨f, rfl⟩ : ∃ f, fuel = f + 1 := ⟨fuel - 1, by omega⟩
    have h0 : canSkip c key (idx % c.capacity) := by
      have := hsk 0 (by omega)
      simpa using this
    rw [modify_loop_skip_one hpow key op f idx repl h0]
    have hnorm : modify_entry_loop key op f (idx % c.capacity + 1) repl c =
        modify_entry_loop key op f (idx + 1) repl c := by
      rw [modify_loop_idx_mod hpow key op f (idx % c.capacity + 1) repl,
        modify_loop_idx_mod hpow key op f (idx + 1) repl, mod_succ_mod]
    rw [hnorm]
    have hsk1 : ∀ t < n, canSkip c key ((idx + 1 + t) % c.capacity) := by
      intro t ht
      have := hsk (t + 1) (by omega)
      have he : idx + (t + 1) = idx + 1 + t := by omega
      rwa [he] at this
    rw [ih f (idx + 1) repl (by omega) hsk1]
    rw [ModRes.tick_addSteps]
    have he2 : idx + 1 + n = idx + (n + 1) := by omega
    have he3 : f + 1 - (n + 1) = f - n := by omega
    rw [he2, he3]

theorem get_loop_idx_mod {c : Chunk V} (hpow : ∃ m, c.capacity = 2 ^ m)
    (key : Nat) (fuel idx : Nat) :
    get_from_chunk_loop c key fuel idx =
      get_from_chunk_loop c key fuel (idx % c.capacity) := by
  cases fuel with
  | zero => rfl
  | succ n =>
    simp only [get_from_chunk_loop]
    rw [and_cap_mask hpow, and_cap_mask hpow, Nat.mod_mod_of_dvd _ dvd_rfl]

theorem get_loop_skip_one {c : Chunk V} (hpow : ∃ m, c.capacity = 2 ^ m)
    {key : Nat} (hkey : key ≠ 0) (fuel idx : Nat)
    (hskip : canSkip c key (idx % c.capacity)) :
    get_from_chunk_loop c key (fuel + 1) idx =
      get_from_chunk_loop c key fuel (idx % c.capacity + 1) := by
  obtain ⟨h1, h2⟩ := hskip
  simp only [get_from_chunk_loop]
  rw [and_cap_mask hpow]
  by_cases hk : c.keyAt (idx % c.capacity) = key
  · have hraw : c.rawAt (idx % c.capacity) = 0 := h1 hk
    have hne : c.keyAt (idx % c.capacity) ≠ EMPTY_KEY := by
      rw [hk]; exact hkey
    rw [if_pos hk, hraw, if_neg hne]
    rfl
  · have hk0 : c.keyAt (idx % c.capacity) ≠ EMPTY_KEY := h2 hk
    rw [if_neg hk, if_neg hk0]

theorem get_loop_skip {c : Chunk V} (hpow : ∃ m, c.capacity = 2 ^ m)
    {key : Nat} (hkey : key ≠ 0) :
    ∀ (n fuel idx : Nat), n ≤ fuel →
      (∀ t < n, canSkip c key ((idx + t) % c.capacity)) →
      get_from_chunk_loop c key fuel idx =
        get_from_chunk_loop c key (fuel - n) (idx + n) := by
  intro n
  induction n with
  | zero => intro fuel idx _ _; simp
  | succ n ih =>
    intro fuel idx hn hsk
    obtain ⟨f, rfl⟩ : ∃ f, fuel = f + 1 := ⟨fuel - 1, by omega⟩
    have h0 : canSkip c key (idx % c.capacity) := by
      have := hsk 0 (by omega)
      simpa using this
    rw [get_loop_skip_one hpow hkey f idx h0]
    have hnorm : get_from_chunk_loop c key f (idx % c.capacity + 1) =
        get_from_chunk_loop c key f (idx + 1) := by
      rw [get_loop_idx_mod hpow key f (idx % c.capacity + 1),
        get_loop_idx_mod hpow key f (idx + 1), mod_succ_mod]
    rw [hnorm]
    have hsk1 : ∀ t < n, canSkip c key ((idx + 1 + t) % c.capacity) := by
      intro t ht
      have := hsk (t + 1) (by omega)
      have he : idx + (t + 1) = idx + 1 + t := by omega
      rwa [he] at this
    rw [ih f (idx + 1) (by omega) hsk1]
    have he2 : idx + 1 + n = idx + (n + 1) := by omega
    have he3 : f + 1 - (n + 1) = f - n := by omega
    rw [he2, he3]

/-! Summaries of one modify_entry / get_from_chunk call on a well-formed
chunk. -/

theorem slotIdx_eq (h : Nat → Nat) (cap key t : Nat) :
    (h key + t) % cap = slotIdx h cap key t := rfl

/-- In a well-formed chunk, every probe position strictly before a
non-tombstone slot of `key` can be skipped. -/
theorem canSkip_prefix_of_live {V : Type} {c : Chunk V} {h : Nat → Nat}
    (hwf : WF h c) {key t0 : Nat} (ht0 : t0 < c.capacity)
    (hk : c.keyAt (slotIdx h c.capacity key t0) = key)
    (hr : c.rawAt (slotIdx h c.capacity key t0) ≠ 0) :
    ∀ t < t0, canSkip c key (slotIdx h c.capacity key t) := by
  have hpos : 0 < c.capacity := by omega
  have hi : slotIdx h c.capacity key t0 < c.capacity := slotIdx_lt hpos h key t0
  have hkey : key ≠ 0 := by
    intro h0
    exact hr (hwf.key0 _ hi (hk.trans h0))
  have hfind := hwf.findable _ hi (by rw [hk]; exact hkey) hr
  rw [hk, distTo_slotIdx hpos h key ht0] at hfind
  intro t ht
  have hslot : slotIdx h c.capacity key t < c.capacity := slotIdx_lt hpos h key t
  have hne0 : c.keyAt (slotIdx h c.capacity key t) ≠ 0 := hfind t ht
  refine ⟨?_, fun _ => hne0⟩
  intro hkt
  by_contra hrt
  have hne : slotIdx h c.capacity key t ≠ slotIdx h c.capacity key t0 := by
    intro he
    exact absurd (slotIdx_inj h key (by omega) ht0 he) (by omega)
  rcases hwf.uniq _ hslot _ hi hne (by rw [hkt]; exact hkey)
    (by rw [hkt, hk]) with h1 | h2
  · exact hrt h1
  · exact hr h2

/-- When no slot holds `key` with a non-tombstone value, every non-empty
probe position can be skipped. -/
theorem canSkip_of_no_live {V : Type} {c : Chunk V} {key : Nat}
    (hnolive : ∀ i < c.capacity, c.keyAt i = key → c.rawAt i = 0)
    {i : Nat} (hil : i < c.capacity) (hne : c.keyAt i ≠ 0) :
    canSkip c key i :=
  ⟨fun hk => hnolive i hil hk, fun _ => hne⟩

/-- modify_entry with Insert or AttemptInsert on a chunk with no live slot
for the key and at least one empty slot: the first empty slot on the probe
sequence is claimed, and Done is returned (replaced stays none). -/
theorem modify_claim_spec {V : Type} [Inhabited V] {h : Nat → Nat}
    {c : Chunk V} (hwf : WF h c) {key : Nat} (hkey : key ≠ 0)
    (hnolive : ∀ i < c.capacity, c.keyAt i = key → c.rawAt i = 0)
    (hempty : ∃ i < c.capacity, c.keyAt i = 0)
    {w : Nat} {a : V} {op : ModOp V}
    (hop : op = ModOp.Insert w a ∨ op = ModOp.AttemptInsert w a) :
    ∃ te < c.capacity,
      c.keyAt (slotIdx h c.capacity key te) = 0 ∧
      (∀ t < te, c.keyAt (slotIdx h c.capacity key t) ≠ 0) ∧
      modify_entry h c key op =
        { out := { result := ModResult.Done (slotIdx h c.capacity key te),
                   index := slotIdx h c.capacity key te }
          chunk := (c.setEntry (slotIdx h c.capacity key te) key w).setAtt
            (slotIdx h c.capacity key te) a
          steps := te + 1 } := by
  have hpow := hwf.cap_pow
  have hpos : 0 < c.capacity := cap_pos hpow
  obtain ⟨i0, hi0, hk0⟩ := hempty
  obtain ⟨tw, htw, hts⟩ := exists_probe_step hpos h key hi0
  obtain ⟨te, hte⟩ := leastSuch_isSome (p := fun t =>
    c.keyAt (slotIdx h c.capacity key t) = 0) htw
    (by show c.keyAt (slotIdx h c.capacity key tw) = 0; rw [hts]; exact hk0)
  obtain ⟨hlt, hpe0, hmin0⟩ := leastSuch_some hte
  have hpe : c.keyAt (slotIdx h c.capacity key te) = 0 := hpe0
  have hmin : ∀ t < te, c.keyAt (slotIdx h c.capacity key t) ≠ 0 :=
    fun t ht => hmin0 t ht
  refine ⟨te, hlt, hpe, hmin, ?_⟩
  have hskip : ∀ t < te, canSkip c key ((h key + t) % c.capacity) := by
    intro t ht
    rw [slotIdx_eq]
    exact canSkip_of_no_live hnolive (slotIdx_lt hpos h key t) (hmin t ht)
  unfold modify_entry
  rw [modify_loop_skip hpow key op te (c.capacity + 1) (h key) none
    (by omega) hskip]
  have hfuel : c.capacity + 1 - te = (c.capacity - te) + 1 := by omega
  rw [hfuel]
  have hraw0 : c.rawAt (slotIdx h c.capacity key te) = 0 :=
    hwf.key0 _ (slotIdx_lt hpos h key te) hpe
  have hstep : modify_entry_loop key op ((c.capacity - te) + 1)
      (h key + te) none c =
      { out := { result := ModResult.Done (slotIdx h c.capacity key te),
                 index := slotIdx h c.capacity key te }
        chunk := (c.setEntry (slotIdx h c.capacity key te) key w).setAtt
          (slotIdx h c.capacity key te) a
        steps := 1 } := by
    simp only [modify_entry_loop]
    rw [and_cap_mask hpow, slotIdx_eq]
    have hnk : ¬ (c.keyAt (slotIdx h c.capacity key te) = key) := by
      rw [hpe]; exact fun he => hkey he.symm
    have hek : c.keyAt (slotIdx h c.capacity key te) = EMPTY_KEY := hpe
    rw [if_neg hnk, if_pos hek]
    rcases hop with rfl | rfl
    · simp [hraw0]
    · simp [hraw0]
  rw [hstep]
  simp only [ModRes.addSteps]
  rw [Nat.add_comm 1 te]

/-- Relative form of the claim summary: starting the loop at cursor idx,
after n skippable positions the probed slot is empty and gets claimed. -/
theorem modify_claim_core {V : Type} [Inhabited V] {c : Chunk V}
    (hpow : ∃ m, c.capacity = 2 ^ m) {key : Nat} (hkey : key ≠ 0)
    {w : Nat} {a : V} {op : ModOp V}
    (hop : op = ModOp.Insert w a ∨ op = ModOp.AttemptInsert w a)
    (repl : Option Nat) {n fuel idx : Nat} (hn : n < fuel)
    (hkn : c.keyAt ((idx + n) % c.capacity) = 0)
    (hrn : c.rawAt ((idx + n) % c.capacity) = 0)
    (hskip : ∀ t < n, canSkip c key ((idx + t) % c.capacity)) :
    modify_entry_loop key op fuel idx repl c =
      { out := { result := match repl with
                   | some r => ModResult.Replaced r
                   | none => ModResult.Done ((idx + n) % c.capacity)
                 index := (idx + n) % c.capacity }
        chunk := (c.setEntry ((idx + n) % c.capacity) key w).setAtt
          ((idx + n) % c.capacity) a
        steps := n + 1 } := by
  rw [modify_loop_skip hpow key op n fuel idx repl (by omega) hskip]
  obtain ⟨f, hf⟩ : ∃ f, fuel - n = f + 1 := ⟨fuel - n - 1, by omega⟩
  rw [hf]
  have hstep : modify_entry_loop key op (f + 1) (idx + n) repl c =
      { out := { result := match repl with
                   | some r => ModResult.Replaced r
                   | none => ModResult.Done ((idx + n) % c.capacity)
                 index := (idx + n) % c.capacity }
        chunk := (c.setEntry ((idx + n) % c.capacity) key w).setAtt
          ((idx + n) % c.capacity) a
        steps := 1 } := by
    simp only [modify_entry_loop]
    rw [and_cap_mask hpow]
    have hnk : ¬ (c.keyAt ((idx + n) % c.capacity) = key) := by
      rw [hkn]; exact fun he => hkey he.symm
    have hek : c.keyAt ((idx + n) % c.capacity) = EMPTY_KEY := hkn
    rw [if_neg hnk, if_pos hek]
    rcases hop with rfl | rfl
    · simp [hrn]
    · simp [hrn]
  rw [hstep]
  simp only [ModRes.addSteps]
  rw [Nat.add_comm 1 n]

/-- modify_entry with Insert on a chunk holding a live value for the key:
the live slot is tombstoned, the first empty slot on the probe sequence is
claimed with the new value, and Replaced(old payload) is returned. -/
theorem modify_replace_spec {V : Type} [Inhabited V] {h : Nat → Nat}
    {c : Chunk V} (hwf : WF h c) {key : Nat} (hkey : key ≠ 0)
    {t0 : Nat} (ht0 : t0 < c.capacity)
    (hk0 : c.keyAt (slotIdx h c.capacity key t0) = key)
    {r0 : Nat} (hr0 : c.rawAt (slotIdx h c.capacity key t0) = r0)
    (hr0ne : r0 ≠ 0) (hr0ne1 : r0 ≠ 1) (hr0lt : r0 < 2 ^ 63)
    (hempty : ∃ i < c.capacity, c.keyAt i = 0) (w : Nat) (a : V) :
    ∃ te, t0 < te ∧ te < c.capacity ∧
      c.keyAt (slotIdx h c.capacity key te) = 0 ∧
      (∀ t < te, c.keyAt (slotIdx h c.capacity key t) ≠ 0) ∧
      modify_entry h c key (ModOp.Insert w a) =
        { out := { result := ModResult.Replaced r0,
                   index := slotIdx h c.capacity key te }
          chunk := (((c.setRaw (slotIdx h c.capacity key t0) 0).setEntry
              (slotIdx h c.capacity key te) key w).setAtt
              (slotIdx h c.capacity key te) a)
          steps := te + 1 } := by
  have hpow := hwf.cap_pow
  have hpos : 0 < c.capacity := cap_pos hpow
  -- the least empty probe step
  obtain ⟨i0, hi0, hek0⟩ := hempty
  obtain ⟨tw, htw, hts⟩ := exists_probe_step hpos h key hi0
  obtain ⟨te, hte⟩ := leastSuch_isSome (p := fun t =>
    c.keyAt (slotIdx h c.capacity key t) = 0) htw
    (by show c.keyAt (slotIdx h c.capacity key tw) = 0; rw [hts]; exact hek0)
  obtain ⟨hlt, hpe0, hmin0⟩ := leastSuch_some hte
  have hpe : c.keyAt (slotIdx h c.capacity key te) = 0 := hpe0
  have hmin : ∀ t < te, c.keyAt (slotIdx h c.capacity key t) ≠ 0 :=
    fun t ht => hmin0 t ht
  have htlt : t0 < te := by
    rcases Nat.lt_trichotomy t0 te with hc | hc | hc
    · exact hc
    · exfalso; rw [← hc] at hpe; rw [hk0] at hpe; exact hkey hpe
    · exfalso
      obtain ⟨ha, hb⟩ := canSkip_prefix_of_live hwf ht0 hk0
        (by rw [hr0]; exact hr0ne) te hc
      by_cases hq : c.keyAt (slotIdx h c.capacity key te) = key
      · exact hkey (hq.symm.trans hpe)
      · exact hb hq hpe
  refine ⟨te, htlt, hlt, hpe, hmin, ?_⟩
  -- skip the prefix before t0
  have hskip0 : ∀ t < t0, canSkip c key ((h key + t) % c.capacity) := by
    intro t ht
    rw [slotIdx_eq]
    exact canSkip_prefix_of_live hwf ht0 hk0 (by rw [hr0]; exact hr0ne) t ht
  unfold modify_entry
  rw [modify_loop_skip hpow key (ModOp.Insert w a) t0 (c.capacity + 1)
    (h key) none (by omega) hskip0]
  have hfuel : c.capacity + 1 - t0 = (c.capacity - t0) + 1 := by omega
  rw [hfuel]
  -- the tombstone step at t0
  set s0 := slotIdx h c.capacity key t0 with hs0
  have hstep1 : modify_entry_loop key (ModOp.Insert w a)
      ((c.capacity - t0) + 1) (h key + t0) none c =
      (modify_entry_loop key (ModOp.Insert w a) (c.capacity - t0)
        (s0 + 1) (some r0) (c.setRaw s0 0)).tick := by
    simp only [modify_entry_loop]
    rw [and_cap_mask hpow, slotIdx_eq, ← hs0]
    rw [if_pos hk0]
    rw [hr0]
    have hparse : (Value.new r0).parsed = ParsedValue.Val r0 :=
      Value.new_parsed_val hr0lt hr0ne hr0ne1
    have hraw : (Value.new r0).raw = r0 := rfl
    rw [hparse, hraw]
    simp
  rw [hstep1]
  -- normalize the cursor and skip to the first empty slot
  have hc1pow : ∃ m, (c.setRaw s0 0).capacity = 2 ^ m := by
    simpa using hpow
  have hnorm : modify_entry_loop key (ModOp.Insert w a) (c.capacity - t0)
      (s0 + 1) (some r0) (c.setRaw s0 0) =
      modify_entry_loop key (ModOp.Insert w a) (c.capacity - t0)
      (h key + t0 + 1) (some r0) (c.setRaw s0 0) := by
    rw [modify_loop_idx_mod hc1pow, modify_loop_idx_mod hc1pow
      key (ModOp.Insert w a) (c.capacity - t0) (h key + t0 + 1) (some r0)]
    congr 1
    simp only [Chunk.capacity_setRaw]
    rw [hs0]
    rw [slotIdx]
    rw [mod_succ_mod]
  rw [hnorm]
  have hn : te - t0 - 1 < c.capacity - t0 := by omega
  have hcap1 : (c.setRaw s0 0).capacity = c.capacity := rfl
  have hposeq : h key + t0 + 1 + (te - t0 - 1) = h key + te := by omega
  have hkn : (c.setRaw s0 0).keyAt
      ((h key + t0 + 1 + (te - t0 - 1)) % (c.setRaw s0 0).capacity) = 0 := by
    rw [hcap1, hposeq, slotIdx_eq]
    simpa using hpe
  have hs0ne : ∀ {u : Nat}, u < c.capacity → u ≠ t0 →
      slotIdx h c.capacity key u ≠ s0 := by
    intro u hu hne he
    exact hne (slotIdx_inj h key hu ht0 he)
  have hrn : (c.setRaw s0 0).rawAt
      ((h key + t0 + 1 + (te - t0 - 1)) % (c.setRaw s0 0).capacity) = 0 := by
    rw [hcap1, hposeq, slotIdx_eq]
    rw [Chunk.rawAt_setRaw_ne c (Ne.symm (hs0ne hlt (by omega))) 0]
    exact hwf.key0 _ (slotIdx_lt hpos h key te) hpe
  have hskip1 : ∀ t < te - t0 - 1,
      canSkip (c.setRaw s0 0) key
        ((h key + t0 + 1 + t) % (c.setRaw s0 0).capacity) := by
    intro t ht
    have hu : t0 + 1 + t < te := by omega
    have he : h key + t0 + 1 + t = h key + (t0 + 1 + t) := by omega
    rw [hcap1, he, slotIdx_eq]
    have hul : t0 + 1 + t < c.capacity := by omega
    have hkne : c.keyAt (slotIdx h c.capacity key (t0 + 1 + t)) ≠ 0 :=
      hmin _ hu
    constructor
    · intro hkk
      rw [Chunk.keyAt_setRaw] at hkk
      rw [Chunk.rawAt_setRaw_ne c (Ne.symm (hs0ne hul (by omega))) 0]
      by_contra hrne
      have hne2 : slotIdx h c.capacity key (t0 + 1 + t) ≠ s0 :=
        hs0ne hul (by omega)
      rcases hwf.uniq _ (slotIdx_lt hpos h key _) _
        (by rw [hs0]; exact slotIdx_lt hpos h key t0) hne2
        (by rw [hkk]; exact hkey) (by rw [hkk, hs0, hk0]) with h1 | h2
      · exact hrne h1
      · rw [hs0] at h2
        rw [h2] at hr0
        exact hr0ne hr0.symm
    · intro _
      rw [Chunk.keyAt_setRaw]
      exact hkne
  rw [modify_claim_core hc1pow hkey (Or.inl rfl) (some r0) hn hkn hrn hskip1]
  rw [hcap1, hposeq, slotIdx_eq]
  simp only [ModRes.tick, ModRes.addSteps]
  congr 1
  omega

/-- modify_entry of any operation aborts with Sentinel (and touches
nothing) when the probe walk reaches a sentinel slot of the key. -/
theorem modify_sentinel_hit_spec {V : Type} [Inhabited V] {h : Nat → Nat}
    {c : Chunk V} (hwf : WF h c) {key t0 : Nat} (ht0 : t0 < c.capacity)
    (hk0 : c.keyAt (slotIdx h c.capacity key t0) = key)
    (hr1 : c.rawAt (slotIdx h c.capacity key t0) = SENTINEL_VALUE)
    (op : ModOp V) :
    modify_entry h c key op =
      { out := { result := ModResult.Sentinel,
                 index := slotIdx h c.capacity key t0 }
        chunk := c, steps := t0 + 1 } := by
  have hpow := hwf.cap_pow
  have hskip : ∀ t < t0, canSkip c key ((h key + t) % c.capacity) := by
    intro t ht
    rw [slotIdx_eq]
    exact canSkip_prefix_of_live hwf ht0 hk0
      (by rw [hr1]; exact one_ne_zero) t ht
  unfold modify_entry
  rw [modify_loop_skip hpow key op t0 (c.capacity + 1) (h key) none
    (by omega) hskip]
  have hfuel : c.capacity + 1 - t0 = (c.capacity - t0) + 1 := by omega
  rw [hfuel]
  have hstep : modify_entry_loop key op ((c.capacity - t0) + 1)
      (h key + t0) none c =
      { out := { result := ModResult.Sentinel,
                 index := slotIdx h c.capacity key t0 }
        chunk := c, steps := 1 } := by
    simp only [modify_entry_loop]
    rw [and_cap_mask hpow, slotIdx_eq, if_pos hk0, hr1]
    have hparse : (Value.new SENTINEL_VALUE).parsed = ParsedValue.Sentinel := by
      decide
    rw [hparse]
  rw [hstep]
  simp only [ModRes.addSteps]
  rw [Nat.add_comm 1 t0]

/-- modify_entry with Empty on a chunk holding a live value for the key:
the slot is tombstoned and Replaced(payload) returned. -/
theorem modify_empty_found_spec {V : Type} [Inhabited V] {h : Nat → Nat}
    {c : Chunk V} (hwf : WF h c) {key t0 : Nat} (ht0 : t0 < c.capacity)
    (hk0 : c.keyAt (slotIdx h c.capacity key t0) = key)
    {r0 : Nat} (hr0 : c.rawAt (slotIdx h c.capacity key t0) = r0)
    (hr0ne : r0 ≠ 0) (hr0ne1 : r0 ≠ 1) (hr0lt : r0 < 2 ^ 63) :
    modify_entry h c key (ModOp.Empty : ModOp V) =
      { out := { result := ModResult.Replaced r0,
                 index := slotIdx h c.capacity key t0 }
        chunk := c.setRaw (slotIdx h c.capacity key t0) 0
        steps := t0 + 1 } := by
  have hpow := hwf.cap_pow
  have hskip : ∀ t < t0, canSkip c key ((h key + t) % c.capacity) := by
    intro t ht
    rw [slotIdx_eq]
    exact canSkip_prefix_of_live hwf ht0 hk0 (by rw [hr0]; exact hr0ne) t ht
  unfold modify_entry
  rw [modify_loop_skip hpow key ModOp.Empty t0 (c.capacity + 1) (h key) none
    (by omega) hskip]
  have hfuel : c.capacity + 1 - t0 = (c.capacity - t0) + 1 := by omega
  rw [hfuel]
  have hstep : modify_entry_loop key (ModOp.Empty : ModOp V)
      ((c.capacity - t0) + 1) (h key + t0) none c =
      { out := { result := ModResult.Replaced r0,
                 index := slotIdx h c.capacity key t0 }
        chunk := c.setRaw (slotIdx h c.capacity key t0) 0
        steps := 1 } := by
    simp only [modify_entry_loop]
    rw [and_cap_mask hpow, slotIdx_eq, if_pos hk0, hr0]
    have hparse : (Value.new r0).parsed = ParsedValue.Val r0 :=
      Value.new_parsed_val hr0lt hr0ne hr0ne1
    have hraw : (Value.new r0).raw = r0 := rfl
    rw [hparse, hraw]
    simp
  rw [hstep]
  simp only [ModRes.addSteps]
  rw [Nat.add_comm 1 t0]

/-- modify_entry with Empty when the key has no live slot but an empty
slot exists on the probe sequence: Fail(0), nothing changes. -/
theorem modify_empty_fail_spec {V : Type} [Inhabited V] {h : Nat → Nat}
    {c : Chunk V} (hwf : WF h c) {key : Nat} (hkey : key ≠ 0)
    (hnolive : ∀ i < c.capacity, c.keyAt i = key → c.rawAt i = 0)
    (hempty : ∃ i < c.capacity, c.keyAt i = 0) :
    ∃ te < c.capacity,
      modify_entry h c key (ModOp.Empty : ModOp V) =
        { out := { result := ModResult.Fail 0,
                   index := slotIdx h c.capacity key te }
          chunk := c, steps := te + 1 } := by
  have hpow := hwf.cap_pow
  have hpos : 0 < c.capacity := cap_pos hpow
  obtain ⟨i0, hi0, hk0⟩ := hempty
  obtain ⟨tw, htw, hts⟩ := exists_probe_step hpos h key hi0
  obtain ⟨te, hte⟩ := leastSuch_isSome (p := fun t =>
    c.keyAt (slotIdx h c.capacity key t) = 0) htw
    (by show c.keyAt (slotIdx h c.capacity key tw) = 0; rw [hts]; exact hk0)
  obtain ⟨hlt, hpe0, hmin0⟩ := leastSuch_some hte
  have hpe : c.keyAt (slotIdx h c.capacity key te) = 0 := hpe0
  have hmin : ∀ t < te, c.keyAt (slotIdx h c.capacity key t) ≠ 0 :=
    fun t ht => hmin0 t ht
  refine ⟨te, hlt, ?_⟩
  have hskip : ∀ t < te, canSkip c key ((h key + t) % c.capacity) := by
    intro t ht
    rw [slotIdx_eq]
    exact canSkip_of_no_live hnolive (slotIdx_lt hpos h key t) (hmin t ht)
  unfold modify_entry
  rw [modify_loop_skip hpow key ModOp.Empty te (c.capacity + 1) (h key) none
    (by omega) hskip]
  have hfuel : c.capacity + 1 - te = (c.capacity - te) + 1 := by omega
  rw [hfuel]
  have hstep : modify_entry_loop key (ModOp.Empty : ModOp V)
      ((c.capacity - te) + 1) (h key + te) none c =
      { out := { result := ModResult.Fail 0,
                 index := slotIdx h c.capacity key te }
        chunk := c, steps := 1 } := by
    simp only [modify_entry_loop]
    rw [and_cap_mask hpow, slotIdx_eq]
    have hnk : ¬ (c.keyAt (slotIdx h c.capacity key te) = key) := by
      rw [hpe]; exact fun he => hkey he.symm
    have hek : c.keyAt (slotIdx h c.capacity key te) = EMPTY_KEY := hpe
    rw [if_neg hnk, if_pos hek]
  rw [hstep]
  simp only [ModRes.addSteps]
  rw [Nat.add_comm 1 te]

/-- modify_entry when every slot of the chunk is skippable: the probe
budget is exhausted after capacity + 1 iterations and the operation
reports TableFull (inserts) or NotFound (Empty and Sentinel ops). -/
theorem modify_exhaust_spec {V : Type} [Inhabited V] {h : Nat → Nat}
    {c : Chunk V} (hpow : ∃ m, c.capacity = 2 ^ m) {key : Nat}
    (hall : ∀ i < c.capacity, canSkip c key i) (op : ModOp V) :
    modify_entry h c key op =
      { out := { result := match op with
                   | ModOp.Insert _ _ => ModResult.TableFull
                   | ModOp.AttemptInsert _ _ => ModResult.TableFull
                   | _ => ModResult.NotFound
                 index := 0 }
        chunk := c, steps := c.capacity + 1 } := by
  have hpos : 0 < c.capacity := cap_pos hpow
  have hskip : ∀ t < c.capacity + 1, canSkip c key ((h key + t) % c.capacity) :=
    fun t _ => hall _ (Nat.mod_lt _ hpos)
  unfold modify_entry
  rw [modify_loop_skip hpow key op (c.capacity + 1) (c.capacity + 1) (h key)
    none (by omega) hskip]
  simp only [Nat.sub_self, modify_entry_loop, ModRes.addSteps]
  rw [Nat.zero_add]

/-- get_from_chunk finds the unique non-tombstone slot of the key. -/
theorem get_found_spec {V : Type} {h : Nat → Nat} {c : Chunk V}
    (hwf : WF h c) {key : Nat} (hkey : key ≠ 0) {t0 : Nat}
    (ht0 : t0 < c.capacity)
    (hk0 : c.keyAt (slotIdx h c.capacity key t0) = key)
    (hr0 : c.rawAt (slotIdx h c.capacity key t0) ≠ 0) :
    get_from_chunk h c key =
      (Value.new (c.rawAt (slotIdx h c.capacity key t0)),
        slotIdx h c.capacity key t0) := by
  have hpow := hwf.cap_pow
  have hskip : ∀ t < t0, canSkip c key ((h key + t) % c.capacity) := by
    intro t ht
    rw [slotIdx_eq]
    exact canSkip_prefix_of_live hwf ht0 hk0 hr0 t ht
  unfold get_from_chunk
  rw [get_loop_skip hpow hkey t0 c.capacity (h key) (by omega) hskip]
  have hfuel : c.capacity - t0 = (c.capacity - t0 - 1) + 1 := by omega
  rw [hfuel]
  simp only [get_from_chunk_loop]
  rw [and_cap_mask hpow, slotIdx_eq, if_pos hk0]
  have hne : (Value.new (c.rawAt (slotIdx h c.capacity key t0))).parsed ≠
      ParsedValue.Empty := by
    rw [Value.new_parsed]
    intro hc
    by_cases hz : c.rawAt (slotIdx h c.capacity key t0) = 0
    · exact hr0 hz
    · rw [if_neg hz] at hc
      by_cases hf : c.rawAt (slotIdx h c.capacity key t0) &&& INV_BIT_MASK ≠ 0
      · rw [if_pos hf] at hc; cases hc
      · rw [if_neg hf] at hc
        by_cases h1 : c.rawAt (slotIdx h c.capacity key t0) &&& VAL_BIT_MASK = 1
        · rw [if_pos h1] at hc; cases hc
        · rw [if_neg h1] at hc; cases hc
  rcases hp : (Value.new (c.rawAt (slotIdx h c.capacity key t0))).parsed with
    v | v | _ | _
  · rfl
  · rfl
  · rfl
  · exact absurd hp hne

/-- get_from_chunk reports Empty when the key has no non-tombstone slot. -/
theorem get_not_found_spec {V : Type} {h : Nat → Nat} {c : Chunk V}
    (hwf : WF h c) {key : Nat} (hkey : key ≠ 0)
    (hnolive : ∀ i < c.capacity, c.keyAt i = key → c.rawAt i = 0) :
    get_from_chunk h c key = (Value.new 0, 0) := by
  have hpow := hwf.cap_pow
  have hpos : 0 < c.capacity := cap_pos hpow
  by_cases hemp : ∃ i < c.capacity, c.keyAt i = 0
  · obtain ⟨i0, hi0, hk0⟩ := hemp
    obtain ⟨tw, htw, hts⟩ := exists_probe_step hpos h key hi0
    obtain ⟨te, hte⟩ := leastSuch_isSome (p := fun t =>
      c.keyAt (slotIdx h c.capacity key t) = 0) htw
      (by show c.keyAt (slotIdx h c.capacity key tw) = 0; rw [hts]; exact hk0)
    obtain ⟨hlt, hpe0, hmin0⟩ := leastSuch_some hte
    have hpe : c.keyAt (slotIdx h c.capacity key te) = 0 := hpe0
    have hmin : ∀ t < te, c.keyAt (slotIdx h c.capacity key t) ≠ 0 :=
      fun t ht => hmin0 t ht
    have hskip : ∀ t < te, canSkip c key ((h key + t) % c.capacity) := by
      intro t ht
      rw [slotIdx_eq]
      exact canSkip_of_no_live hnolive (slotIdx_lt hpos h key t) (hmin t ht)
    unfold get_from_chunk
    rw [get_loop_skip hpow hkey te c.capacity (h key) (by omega) hskip]
    have hfuel : c.capacity - te = (c.capacity - te - 1) + 1 := by omega
    rw [hfuel]
    simp only [get_from_chunk_loop]
    rw [and_cap_mask hpow, slotIdx_eq]
    have hnk : ¬ (c.keyAt (slotIdx h c.capacity key te) = key) := by
      rw [hpe]; exact fun he => hkey he.symm
    have hek : c.keyAt (slotIdx h c.capacity key te) = EMPTY_KEY := hpe
    rw [if_neg hnk, if_pos hek]
  · push_neg at hemp
    have hskip : ∀ t < c.capacity, canSkip c key ((h key + t) % c.capacity) := by
      intro t _
      rw [slotIdx_eq]
      exact canSkip_of_no_live hnolive (slotIdx_lt hpos h key t)
        (hemp _ (slotIdx_lt hpos h key t))
    unfold get_from_chunk
    rw [get_loop_skip hpow hkey c.capacity c.capacity (h key) (by omega) hskip]
    simp only [Nat.sub_self, get_from_chunk_loop]

/-! Preservation of the invariants by the slot updates. -/

/-- Writing a tombstone preserves well-formedness. -/
theorem WF_setRaw_zero {V : Type} {h : Nat → Nat} {c : Chunk V}
    (hwf : WF h c) (i : Nat) : WF h (c.setRaw i 0) := by
  have hraw : ∀ j, (c.setRaw i 0).rawAt j = 0 ∨
      (c.setRaw i 0).rawAt j = c.rawAt j := by
    intro j
    by_cases hij : i = j
    · subst hij
      by_cases hl : i < c.entries.length
      · left; exact Chunk.rawAt_setRaw_self c hl 0
      · right
        have hle : c.entries.length ≤ i := Nat.le_of_not_lt hl
        simp [Chunk.setRaw, List.set_eq_of_length_le hle]
    · right; exact Chunk.rawAt_setRaw_ne c hij 0
  refine ⟨by simp [hwf.entries_len], by simpa using hwf.att_len,
    hwf.cap_pow, hwf.limit_eq, ?_, ?_, ?_, ?_⟩
  · intro j hj hk
    rw [Chunk.keyAt_setRaw] at hk
    rcases hraw j with h0 | he
    · exact h0
    · rw [he]; exact hwf.key0 j (by simpa using hj) hk
  · intro j hj
    rcases hraw j with h0 | he
    · rw [h0]; positivity
    · rw [he]; exact hwf.no_prime j (by simpa using hj)
  · intro x hx y hy hxy hk0 hk
    rw [Chunk.keyAt_setRaw] at hk0 hk
    rw [Chunk.keyAt_setRaw] at hk
    rcases hraw x with h0 | hex
    · exact Or.inl h0
    · rcases hraw y with h0 | hey
      · exact Or.inr h0
      · rw [hex, hey]
        exact hwf.uniq x (by simpa using hx) y (by simpa using hy) hxy hk0 hk
  · intro j hj hk hr
    rw [Chunk.keyAt_setRaw] at hk
    simp only [Chunk.capacity_setRaw] at hj ⊢
    have hrj : c.rawAt j ≠ 0 := by
      rcases hraw j with h0 | he
      · exact absurd h0 hr
      · rw [he] at hr; exact hr
    intro t ht
    rw [Chunk.keyAt_setRaw, Chunk.keyAt_setRaw]
    rw [Chunk.keyAt_setRaw] at ht
    exact hwf.findable j hj hk hrj t ht

/-- Tombstoning preserves the absence of sentinels. -/
theorem NoSent_setRaw_zero {V : Type} {c : Chunk V} (hns : NoSent c)
    (i : Nat) : NoSent (c.setRaw i 0) := by
  intro j hj
  simp only [Chunk.capacity_setRaw] at hj
  by_cases hij : i = j
  · subst hij
    by_cases hl : i < c.entries.length
    · rw [Chunk.rawAt_setRaw_self c hl 0]
      simp [SENTINEL_VALUE]
    · have hle : c.entries.length ≤ i := Nat.le_of_not_lt hl
      simp only [Chunk.setRaw, List.set_eq_of_length_le hle]
      exact hns i hj
  · rw [Chunk.rawAt_setRaw_ne c hij 0]
    exact hns j hj

/-- Claiming the first empty probe slot preserves well-formedness. -/
theorem WF_claim {V : Type} {h : Nat → Nat} {c : Chunk V} (hwf : WF h c)
    {key : Nat} (hkey : key ≠ 0) {w : Nat} (hw0 : w ≠ 0) (hwlt : w < 2 ^ 63)
    {te : Nat} (hte : te < c.capacity)
    (hpe : c.keyAt (slotIdx h c.capacity key te) = 0)
    (hmin : ∀ t < te, c.keyAt (slotIdx h c.capacity key t) ≠ 0)
    (hnolive : ∀ i < c.capacity, c.keyAt i = key → c.rawAt i = 0)
    (a : V) :
    WF h ((c.setEntry (slotIdx h c.capacity key te) key w).setAtt
      (slotIdx h c.capacity key te) a) := by
  have hpos : 0 < c.capacity := cap_pos hwf.cap_pow
  set s := slotIdx h c.capacity key te with hs
  have hsl : s < c.capacity := slotIdx_lt hpos h key te
  have hslen : s < c.entries.length := by rw [hwf.entries_len]; exact hsl
  have hkey' : ∀ j, ((c.setEntry s key w).setAtt s a).keyAt j =
      if j = s then key else c.keyAt j := by
    intro j
    rw [Chunk.keyAt_setAtt]
    by_cases hj : j = s
    · subst hj; rw [if_pos rfl]; exact Chunk.keyAt_setEntry_self c hslen key w
    · rw [if_neg hj]; exact Chunk.keyAt_setEntry_ne c (Ne.symm hj) key w
  have hraw' : ∀ j, ((c.setEntry s key w).setAtt s a).rawAt j =
      if j = s then w else c.rawAt j := by
    intro j
    rw [Chunk.rawAt_setAtt]
    by_cases hj : j = s
    · subst hj; rw [if_pos rfl]; exact Chunk.rawAt_setEntry_self c hslen key w
    · rw [if_neg hj]; exact Chunk.rawAt_setEntry_ne c (Ne.symm hj) key w
  have hcap' : ((c.setEntry s key w).setAtt s a).capacity = c.capacity := rfl
  refine ⟨?_, ?_, hwf.cap_pow, hwf.limit_eq, ?_, ?_, ?_, ?_⟩
  · simp [hwf.entries_len]
  · simp [hwf.att_len]
  · intro j hj hk
    rw [hcap'] at hj
    rw [hkey' j] at hk
    by_cases hjs : j = s
    · rw [if_pos hjs] at hk; exact absurd hk hkey
    · rw [if_neg hjs] at hk
      rw [hraw' j, if_neg hjs]
      exact hwf.key0 j hj hk
  · intro j hj
    rw [hcap'] at hj
    rw [hraw' j]
    by_cases hjs : j = s
    · rw [if_pos hjs]; exact hwlt
    · rw [if_neg hjs]; exact hwf.no_prime j hj
  · intro x hx y hy hxy hk0 hk
    rw [hcap'] at hx hy
    rw [hkey' x] at hk0 hk
    rw [hkey' y] at hk
    rw [hraw' x, hraw' y]
    by_cases hxs : x = s
    · rw [if_pos hxs] at hk
      by_cases hys : y = s
      · exact absurd (hxs.trans hys.symm) hxy
      · rw [if_neg hys] at hk
        rw [if_neg hys]
        exact Or.inr (hnolive y hy hk.symm)
    · rw [if_neg hxs] at hk0 hk
      by_cases hys : y = s
      · rw [if_pos hys] at hk
        rw [if_neg hxs]
        exact Or.inl (hnolive x hx hk)
      · rw [if_neg hys] at hk
        rw [if_neg hxs, if_neg hys]
        exact hwf.uniq x hx y hy hxy hk0 hk
  · intro j hj hk hr
    rw [hcap'] at hj ⊢
    rw [hkey' j] at hk ⊢
    by_cases hjs : j = s
    · rw [if_pos hjs]
      rw [if_pos hjs] at hk
      have hd : distTo h c.capacity key j = te := by
        rw [hjs, hs, distTo_slotIdx hpos h key hte]
      rw [hd]
      intro t ht
      rw [hkey' _]
      by_cases hts : slotIdx h c.capacity key t = s
      · rw [if_pos hts]; exact hkey
      · rw [if_neg hts]; exact hmin t ht
    · rw [if_neg hjs] at hk ⊢
      rw [hraw' j, if_neg hjs] at hr
      have hfind := hwf.findable j hj hk hr
      intro t ht
      rw [hkey' _]
      by_cases hts : slotIdx h c.capacity (c.keyAt j) t = s
      · rw [if_pos hts]; exact hkey
      · rw [if_neg hts]; exact hfind t ht

/-- Claiming a slot with a non-sentinel word preserves NoSent. -/
theorem NoSent_claim {V : Type} {c : Chunk V} (hns : NoSent c) {s w : Nat}
    (hslen : s < c.entries.length) (hw1 : w ≠ SENTINEL_VALUE) {key : Nat}
    (a : V) : NoSent ((c.setEntry s key w).setAtt s a) := by
  intro j hj
  rw [Chunk.rawAt_setAtt]
  by_cases hjs : j = s
  · subst hjs; rw [Chunk.rawAt_setEntry_self c hslen key w]; exact hw1
  · rw [Chunk.rawAt_setEntry_ne c (Ne.symm hjs) key w]
    exact hns j (by simpa using hj)

/-! The liveRaw abstraction under the updates. -/

theorem liveRaw_some_elim {V : Type} {h : Nat → Nat} {c : Chunk V}
    {key r : Nat} (he : liveRaw h c key = some r) :
    ∃ t < c.capacity, c.keyAt (slotIdx h c.capacity key t) = key ∧
      c.rawAt (slotIdx h c.capacity key t) = r ∧ r ≠ 0 := by
  unfold liveRaw at he
  cases hl : leastSuch (fun t => c.keyAt (slotIdx h c.capacity key t) = key ∧
      c.rawAt (slotIdx h c.capacity key t) ≠ 0) c.capacity with
  | none => rw [hl] at he; cases he
  | some t =>
    rw [hl] at he
    obtain ⟨h1, h2, _⟩ := leastSuch_some hl
    have h2' : c.keyAt (slotIdx h c.capacity key t) = key ∧
        c.rawAt (slotIdx h c.capacity key t) ≠ 0 := h2
    simp only [Option.map_some'] at he
    cases he
    exact ⟨t, h1, h2'.1, rfl, h2'.2⟩

theorem liveRaw_none_iff {V : Type} {h : Nat → Nat} {c : Chunk V}
    {key : Nat} (hpos : 0 < c.capacity) :
    liveRaw h c key = none ↔
      ∀ i < c.capacity, c.keyAt i = key → c.rawAt i = 0 := by
  unfold liveRaw
  constructor
  · intro he i hi hk
    cases hl : leastSuch (fun t => c.keyAt (slotIdx h c.capacity key t) = key ∧
        c.rawAt (slotIdx h c.capacity key t) ≠ 0) c.capacity with
    | some t => rw [hl] at he; cases he
    | none =>
      obtain ⟨t, ht, hts⟩ := exists_probe_step hpos h key hi
      have := leastSuch_none_all hl t ht
      by_contra hr
      exact this (by rw [hts]; exact ⟨hk, hr⟩)
  · intro hall
    cases hl : leastSuch (fun t => c.keyAt (slotIdx h c.capacity key t) = key ∧
        c.rawAt (slotIdx h c.capacity key t) ≠ 0) c.capacity with
    | none => rfl
    | some t =>
      obtain ⟨h1, h2, _⟩ := leastSuch_some hl
      have h2' : c.keyAt (slotIdx h c.capacity key t) = key ∧
          c.rawAt (slotIdx h c.capacity key t) ≠ 0 := h2
      exact absurd (hall _ (slotIdx_lt hpos h key t) h2'.1) h2'.2

/-- After claiming slot (slotIdx te) for the key, liveRaw of the key is
the written word. -/
theorem liveRaw_claim_self {V : Type} {h : Nat → Nat} {c : Chunk V}
    (hwf : WF h c) {key : Nat} (hkey : key ≠ 0) {w : Nat} (hw0 : w ≠ 0)
    {te : Nat} (hte : te < c.capacity)
    (hpe : c.keyAt (slotIdx h c.capacity key te) = 0)
    (hnolive : ∀ i < c.capacity, c.keyAt i = key → c.rawAt i = 0) (a : V) :
    liveRaw h ((c.setEntry (slotIdx h c.capacity key te) key w).setAtt
      (slotIdx h c.capacity key te) a) key = some w := by
  have hpos : 0 < c.capacity := cap_pos hwf.cap_pow
  set s := slotIdx h c.capacity key te with hs
  set c2 := (c.setEntry s key w).setAtt s a with hc2
  have hslen : s < c.entries.length := by
    rw [hwf.entries_len]; exact slotIdx_lt hpos h key te
  have hkey' : ∀ j, c2.keyAt j = if j = s then key else c.keyAt j := by
    intro j
    rw [hc2, Chunk.keyAt_setAtt]
    by_cases hj : j = s
    · subst hj; rw [if_pos rfl]; exact Chunk.keyAt_setEntry_self c hslen key w
    · rw [if_neg hj]; exact Chunk.keyAt_setEntry_ne c (Ne.symm hj) key w
  have hraw' : ∀ j, c2.rawAt j = if j = s then w else c.rawAt j := by
    intro j
    rw [hc2, Chunk.rawAt_setAtt]
    by_cases hj : j = s
    · subst hj; rw [if_pos rfl]; exact Chunk.rawAt_setEntry_self c hslen key w
    · rw [if_neg hj]; exact Chunk.rawAt_setEntry_ne c (Ne.symm hj) key w
  have hcap : c2.capacity = c.capacity := rfl
  unfold liveRaw
  rw [hcap]
  have huniq : leastSuch (fun t => c2.keyAt (slotIdx h c.capacity key t) = key ∧
      c2.rawAt (slotIdx h c.capacity key t) ≠ 0) c.capacity = some te := by
    apply leastSuch_unique hte
    · constructor
      · rw [← hs, hkey' s, if_pos rfl]
      · rw [← hs, hraw' s, if_pos rfl]; exact hw0
    · intro u hu hp
      obtain ⟨hpk, hpr⟩ := hp
      by_cases hus : slotIdx h c.capacity key u = s
      · rw [hs] at hus
        exact slotIdx_inj h key hu hte hus
      · rw [hkey' _, if_neg hus] at hpk
        rw [hraw' _, if_neg hus] at hpr
        exact absurd (hnolive _ (slotIdx_lt hpos h key u) hpk) hpr
  rw [huniq]
  simp only [Option.map_some']
  rw [hraw' _, ← hs, if_pos rfl]

/-- Claiming a slot for one key leaves liveRaw of every other key
unchanged. -/
theorem liveRaw_claim_other {V : Type} {h : Nat → Nat} {c : Chunk V}
    (hwf : WF h c) {key : Nat} (hkey : key ≠ 0) (w : Nat)
    {te : Nat} (hte : te < c.capacity)
    (hpe : c.keyAt (slotIdx h c.capacity key te) = 0) (a : V)
    {q : Nat} (hq : q ≠ key) :
    liveRaw h ((c.setEntry (slotIdx h c.capacity key te) key w).setAtt
      (slotIdx h c.capacity key te) a) q = liveRaw h c q := by
  have hpos : 0 < c.capacity := cap_pos hwf.cap_pow
  set s := slotIdx h c.capacity key te with hs
  set c2 := (c.setEntry s key w).setAtt s a with hc2
  have hslen : s < c.entries.length := by
    rw [hwf.entries_len]; exact slotIdx_lt hpos h key te
  have hkey' : ∀ j, c2.keyAt j = if j = s then key else c.keyAt j := by
    intro j
    rw [hc2, Chunk.keyAt_setAtt]
    by_cases hj : j = s
    · subst hj; rw [if_pos rfl]; exact Chunk.keyAt_setEntry_self c hslen key w
    · rw [if_neg hj]; exact Chunk.keyAt_setEntry_ne c (Ne.symm hj) key w
  have hraw' : ∀ j, c2.rawAt j = if j = s then w else c.rawAt j := by
    intro j
    rw [hc2, Chunk.rawAt_setAtt]
    by_cases hj : j = s
    · subst hj; rw [if_pos rfl]; exact Chunk.rawAt_setEntry_self c hslen key w
    · rw [if_neg hj]; exact Chunk.rawAt_setEntry_ne c (Ne.symm hj) key w
  have hiff : ∀ t < c.capacity,
      ((c2.keyAt (slotIdx h c.capacity q t) = q ∧
        c2.rawAt (slotIdx h c.capacity q t) ≠ 0) ↔
       (c.keyAt (slotIdx h c.capacity q t) = q ∧
        c.rawAt (slotIdx h c.capacity q t) ≠ 0)) := by
    intro t _
    by_cases hts : slotIdx h c.capacity q t = s
    · rw [hkey' _, hraw' _, if_pos hts, if_pos hts]
      constructor
      · rintro ⟨hk, _⟩; exact absurd hk.symm hq
      · rintro ⟨hk, hr⟩
        rw [hts] at hk hr
        exact absurd (hwf.key0 s (slotIdx_lt hpos h key te) hpe) (hpe ▸ hr)
    · rw [hkey' _, hraw' _, if_neg hts, if_neg hts]
  unfold liveRaw
  have hcap : c2.capacity = c.capacity := rfl
  rw [hcap, leastSuch_congr hiff]
  cases hl : leastSuch (fun t => c.keyAt (slotIdx h c.capacity q t) = q ∧
      c.rawAt (slotIdx h c.capacity q t) ≠ 0) c.capacity with
  | none => rfl
  | some t =>
    obtain ⟨h1, h2, _⟩ := leastSuch_some hl
    have h2' : c.keyAt (slotIdx h c.capacity q t) = q ∧
        c.rawAt (slotIdx h c.capacity q t) ≠ 0 := h2
    simp only [Option.map_some']
    have hts : slotIdx h c.capacity q t ≠ s := by
      intro he
      rw [he] at h2'
      exact absurd (hwf.key0 s (slotIdx_lt hpos h key te) hpe) (hpe ▸ h2'.2)
    rw [hraw' _, if_neg hts]

/-- Tombstoning a slot that holds `key` leaves liveRaw of other keys
unchanged. -/
theorem liveRaw_setRaw_other {V : Type} {h : Nat → Nat} {c : Chunk V}
    {key s0 : Nat} (hk0 : c.keyAt s0 = key) {q : Nat} (hq : q ≠ key) :
    liveRaw h (c.setRaw s0 0) q = liveRaw h c q := by
  have hiff : ∀ t < c.capacity,
      (((c.setRaw s0 0).keyAt (slotIdx h c.capacity q t) = q ∧
        (c.setRaw s0 0).rawAt (slotIdx h c.capacity q t) ≠ 0) ↔
       (c.keyAt (slotIdx h c.capacity q t) = q ∧
        c.rawAt (slotIdx h c.capacity q t) ≠ 0)) := by
    intro t _
    rw [Chunk.keyAt_setRaw]
    by_cases hts : slotIdx h c.capacity q t = s0
    · rw [hts, hk0]
      constructor
      · rintro ⟨hk, _⟩; exact absurd hk.symm hq
      · rintro ⟨hk, _⟩; exact absurd hk.symm hq
    · rw [Chunk.rawAt_setRaw_ne c (Ne.symm hts) 0]
  unfold liveRaw
  have hcap : (c.setRaw s0 0).capacity = c.capacity := rfl
  rw [hcap, leastSuch_congr hiff]
  cases hl : leastSuch (fun t => c.keyAt (slotIdx h c.capacity q t) = q ∧
      c.rawAt (slotIdx h c.capacity q t) ≠ 0) c.capacity with
  | none => rfl
  | some t =>
    obtain ⟨h1, h2, _⟩ := leastSuch_some hl
    have h2' : c.keyAt (slotIdx h c.capacity q t) = q ∧
        c.rawAt (slotIdx h c.capacity q t) ≠ 0 := h2
    simp only [Option.map_some']
    have hts : slotIdx h c.capacity q t ≠ s0 := by
      intro he
      rw [he] at h2'
      rw [hk0] at h2'
      exact hq h2'.1.symm
    rw [Chunk.rawAt_setRaw_ne c (Ne.symm hts) 0]

/-- A slot holding the key live forces liveRaw to be defined. -/
theorem liveRaw_isSome_of_slot {V : Type} {h : Nat → Nat} {c : Chunk V}
    (hpos : 0 < c.capacity) {q j : Nat} (hj : j < c.capacity)
    (hk : c.keyAt j = q) (hr : c.rawAt j ≠ 0) :
    ∃ r, liveRaw h c q = some r := by
  obtain ⟨t, ht, hts⟩ := exists_probe_step hpos h q hj
  obtain ⟨u, hu⟩ := leastSuch_isSome (p := fun t =>
    c.keyAt (slotIdx h c.capacity q t) = q ∧
      c.rawAt (slotIdx h c.capacity q t) ≠ 0) ht
    (by show c.keyAt (slotIdx h c.capacity q t) = q ∧
          c.rawAt (slotIdx h c.capacity q t) ≠ 0
        rw [hts]; exact ⟨hk, hr⟩)
  refine ⟨c.rawAt (slotIdx h c.capacity q u), ?_⟩
  unfold liveRaw
  rw [hu, Option.map_some']

/-- The copy loop of check_resize: starting from a well-formed old chunk
and a strictly larger well-formed target, it terminates without panicking
and produces a target chunk that is well formed, sentinel-free, and holds
exactly the live entries of the old chunk. -/
theorem migrate_loop_spec {V : Type} [Inhabited V] {h : Nat → Nat}
    {old : Chunk V} (hwfold : WF h old) (hnsold : NoSent old) :
    ∀ (f i : Nat) (oldc nc : Chunk V) (eff : Nat),
      f + i = old.capacity →
      (∀ j, oldc.keyAt j = old.keyAt j) →
      (∀ j, i ≤ j → oldc.rawAt j = old.rawAt j) →
      WF h nc → NoSent nc →
      old.capacity < nc.capacity →
      countKeys nc = eff → eff ≤ i →
      (∀ j < i, old.keyAt j ≠ 0 → old.rawAt j ≠ 0 →
        liveRaw h nc (old.keyAt j) = some (old.rawAt j)) →
      (∀ q r, liveRaw h nc q = some r →
        ∃ j < i, old.keyAt j = q ∧ old.rawAt j = r ∧ old.rawAt j ≠ 0) →
      ∃ oldFin ncFin effFin,
        migrate_loop h f oldc nc i eff = some (oldFin, ncFin, effFin) ∧
        WF h ncFin ∧ NoSent ncFin ∧
        ncFin.capacity = nc.capacity ∧
        ncFin.occupation = nc.occupation ∧
        countKeys ncFin = effFin ∧ effFin ≤ i + f ∧
        (∀ j < i + f, old.keyAt j ≠ 0 → old.rawAt j ≠ 0 →
          liveRaw h ncFin (old.keyAt j) = some (old.rawAt j)) ∧
        (∀ q r, liveRaw h ncFin q = some r →
          ∃ j < i + f, old.keyAt j = q ∧ old.rawAt j = r ∧
            old.rawAt j ≠ 0) := by
  intro f
  induction f with
  | zero =>
    intro i oldc nc eff hfi hkeys hraws hwf hns hcap hcnt heff ha hb
    exact ⟨oldc, nc, eff, rfl, hwf, hns, rfl, rfl, hcnt, by omega,
      by simpa using ha, by simpa using hb⟩
  | succ f ih =>
    intro i oldc nc eff hfi hkeys hraws hwf hns hcap hcnt heff ha hb
    have hi : i < old.capacity := by omega
    have hkeyi := hkeys i
    have hrawi := hraws i (le_refl i)
    by_cases hk0 : old.keyAt i = 0
    · -- empty key: skip
      have hstep : migrate_loop h (f + 1) oldc nc i eff =
          migrate_loop h f oldc nc (i + 1) eff := by
        simp only [migrate_loop]
        rw [hkeyi]
        have : ¬ (old.keyAt i ≠ EMPTY_KEY) := by
          simp [EMPTY_KEY, hk0]
        rw [if_neg this]
      rw [hstep]
      obtain ⟨o2, n2, e2, heq, rest⟩ := ih (i + 1) oldc nc eff (by omega)
        hkeys (fun j hj => hraws j (by omega)) hwf hns hcap hcnt (by omega)
        (by
          intro j hj hjk hjr
          rcases Nat.lt_succ_iff_lt_or_eq.1 hj with hj' | hj'
          · exact ha j hj' hjk hjr
          · subst hj'; exact absurd hk0 hjk)
        (by
          intro q r hqr
          obtain ⟨j, hj, rest2⟩ := hb q r hqr
          exact ⟨j, by omega, rest2⟩)
      refine ⟨o2, n2, e2, heq, ?_⟩
      have he : i + 1 + f = i + (f + 1) := by omega
      rw [he] at rest
      exact rest
    · -- non-empty key
      by_cases hr0 : old.rawAt i = 0
      · -- tombstone: parses Empty, skip
        have hstep : migrate_loop h (f + 1) oldc nc i eff =
            migrate_loop h f oldc nc (i + 1) eff := by
          simp only [migrate_loop]
          rw [hkeyi, hrawi, hr0]
          rw [if_pos (by simp [EMPTY_KEY, hk0])]
          rfl
        rw [hstep]
        obtain ⟨o2, n2, e2, heq, rest⟩ := ih (i + 1) oldc nc eff (by omega)
          hkeys (fun j hj => hraws j (by omega)) hwf hns hcap hcnt (by omega)
          (by
            intro j hj hjk hjr
            rcases Nat.lt_succ_iff_lt_or_eq.1 hj with hj' | hj'
            · exact ha j hj' hjk hjr
            · subst hj'; exact absurd hr0 hjr)
          (by
            intro q r hqr
            obtain ⟨j, hj, rest2⟩ := hb q r hqr
            exact ⟨j, by omega, rest2⟩)
        refine ⟨o2, n2, e2, heq, ?_⟩
        have he : i + 1 + f = i + (f + 1) := by omega
        rw [he] at rest
        exact rest
      · -- a live value: it is copied
        have hr1 : old.rawAt i ≠ 1 := by
          intro he
          exact hnsold i hi (by rw [he]; rfl)
        have hrlt : old.rawAt i < 2 ^ 63 := hwfold.no_prime i hi
        have hncpos : 0 < nc.capacity := cap_pos hwf.cap_pow
        -- no live slot for this key in the target chunk yet
        have hnolive : ∀ j < nc.capacity, nc.keyAt j = old.keyAt i →
            nc.rawAt j = 0 := by
          intro j hj hjk
          by_contra hjr
          obtain ⟨r, hr⟩ := liveRaw_isSome_of_slot hncpos hj hjk hjr
          obtain ⟨j', hj', hk', hr', hne'⟩ := hb _ r hr
          have hneq : j' ≠ i := by omega
          rcases hwfold.uniq j' (by omega) i hi hneq
            (by rw [hk']; exact hk0) (by rw [hk']) with hc | hc
          · exact hne' hc
          · exact hr0 hc
        have hempty : ∃ j < nc.capacity, nc.keyAt j = 0 := by
          have hlen : countKeys nc < nc.entries.length := by
            rw [hwf.entries_len]; omega
          obtain ⟨j, hj, hjk⟩ := exists_empty_of_count_lt nc hlen
          exact ⟨j, by rw [← hwf.entries_len]; exact hj, hjk⟩
        set primed := old.rawAt i ||| INV_BIT_MASK with hprimed
        have hprlt : primed < 2 ^ 64 := by
          rw [hprimed, INV_BIT_MASK_eq]; exact or_hi_lt hrlt
        obtain ⟨te, hte, hpe, hmin, hclaim⟩ := modify_claim_spec hwf hk0
          hnolive hempty (w := primed)
          (a := oldc.attachment.getD i default)
          (Or.inr rfl)
        set s := slotIdx h nc.capacity (old.keyAt i) te with hss
        have hslen : s < nc.entries.length := by
          rw [hwf.entries_len]; exact slotIdx_lt hncpos h _ te
        have hraws1 : ((nc.setEntry s (old.keyAt i) primed).setAtt s
            (oldc.attachment.getD i default)).rawAt s = primed := by
          rw [Chunk.rawAt_setAtt]
          exact Chunk.rawAt_setEntry_self nc hslen _ _
        have hstripped : primed &&& VAL_BIT_MASK = old.rawAt i := by
          rw [hprimed, INV_BIT_MASK_eq]
          exact or_hi_and_val hrlt
        -- the state after the strip CAS
        have hnc2 : (((nc.setEntry s (old.keyAt i) primed).setAtt s
            (oldc.attachment.getD i default)).setRaw s (primed &&& VAL_BIT_MASK)) =
            (nc.setEntry s (old.keyAt i) (old.rawAt i)).setAtt s
              (oldc.attachment.getD i default) := by
          rw [Chunk.setAtt_setRaw]
          rw [Chunk.setEntry_setRaw nc hslen, hstripped]
        have hstep : migrate_loop h (f + 1) oldc nc i eff =
            migrate_loop h f (oldc.setRaw i SENTINEL_VALUE)
              ((nc.setEntry s (old.keyAt i) (old.rawAt i)).setAtt s
                (oldc.attachment.getD i default)) (i + 1) (eff + 1) := by
          simp only [migrate_loop]
          rw [hkeyi, hrawi]
          rw [if_pos (by simp [EMPTY_KEY, hk0])]
          have hparse : (Value.new (old.rawAt i)).parsed =
              ParsedValue.Val (old.rawAt i) :=
            Value.new_parsed_val hrlt hr0 hr1
          rw [hparse]
          have hvraw : (Value.new (old.rawAt i)).raw = old.rawAt i := rfl
          rw [hvraw]
          rw [hclaim]
          simp only [hraws1, Chunk.eraseAtt_eq, if_true, eq_self_iff_true,
            if_pos]
          rw [hnc2]
        rw [hstep]
        -- invariants for the recursive call
        have hwf2 : WF h ((nc.setEntry s (old.keyAt i) (old.rawAt i)).setAtt s
            (oldc.attachment.getD i default)) := by
          rw [hss]
          exact WF_claim hwf hk0 hr0 hrlt hte hpe hmin hnolive _
        have hns2 : NoSent ((nc.setEntry s (old.keyAt i) (old.rawAt i)).setAtt s
            (oldc.attachment.getD i default)) :=
          NoSent_claim hns hslen hr1 _
        have hcnt2 : countKeys ((nc.setEntry s (old.keyAt i)
            (old.rawAt i)).setAtt s (oldc.attachment.getD i default)) =
            eff + 1 := by
          rw [countKeys_setAtt, countKeys_setEntry_new nc hslen
            (by rw [hss]; exact hpe) hk0, hcnt]
        have hlself : liveRaw h ((nc.setEntry s (old.keyAt i)
            (old.rawAt i)).setAtt s (oldc.attachment.getD i default))
            (old.keyAt i) = some (old.rawAt i) := by
          rw [hss]
          exact liveRaw_claim_self hwf hk0 hr0 hte hpe hnolive _
        have hlother : ∀ q, q ≠ old.keyAt i →
            liveRaw h ((nc.setEntry s (old.keyAt i)
              (old.rawAt i)).setAtt s (oldc.attachment.getD i default)) q =
            liveRaw h nc q := by
          intro q hq
          rw [hss]
          exact liveRaw_claim_other hwf hk0 _ hte hpe _ hq
        obtain ⟨o2, n2, e2, heq, hwfF, hnsF, hcapF, hoccF, hcntF, heffF,
          haF, hbF⟩ := ih (i + 1) (oldc.setRaw i SENTINEL_VALUE) _ (eff + 1)
          (by omega)
          (by intro j; rw [Chunk.keyAt_setRaw]; exact hkeys j)
          (by
            intro j hj
            rw [Chunk.rawAt_setRaw_ne oldc (by omega) SENTINEL_VALUE]
            exact hraws j (by omega))
          hwf2 hns2 (by simpa using hcap) hcnt2 (by omega)
          (by
            intro j hj hjk hjr
            rcases Nat.lt_succ_iff_lt_or_eq.1 hj with hj' | hj'
            · have hqj : old.keyAt j ≠ old.keyAt i := by
                intro he
                have hneq : j ≠ i := by omega
                rcases hwfold.uniq j (by omega) i hi hneq hjk he with hc | hc
                · exact hjr hc
                · exact hr0 hc
              rw [hlother _ hqj]
              exact ha j hj' hjk hjr
            · subst hj'
              exact hlself
          )
          (by
            intro q r hqr
            by_cases hq : q = old.keyAt i
            · subst hq
              rw [hlself] at hqr
              cases hqr
              exact ⟨i, by omega, rfl, rfl, hr0⟩
            · rw [hlother _ hq] at hqr
              obtain ⟨j, hj, rest2⟩ := hb q r hqr
              exact ⟨j, by omega, rest2⟩)
        refine ⟨o2, n2, e2, heq, hwfF, hnsF, by simpa using hcapF,
          by simpa using hoccF, hcntF, by omega, ?_, ?_⟩
        · intro j hj hjk hjr
          have he : i + 1 + f = i + (f + 1) := by omega
          exact haF j (by omega) hjk hjr
        · intro q r hqr
          obtain ⟨j, hj, rest2⟩ := hbF q r hqr
          exact ⟨j, by omega, rest2⟩

/-! check_resize on a quiescent over-occupied table. -/

theorem WF_alloc {V : Type} [Inhabited V] (h : Nat → Nat) {n : Nat}
    (hn : ∃ m, n = 2 ^ m) : WF h (Chunk.alloc_chunk V n) := by
  refine ⟨by simp [Chunk.alloc_chunk], by simp [Chunk.alloc_chunk], hn, rfl,
    ?_, ?_, ?_, ?_⟩
  · intro i _ _
    simp
  · intro i _
    simp
  · intro i _ j _ _ hk _
    simp at hk
  · intro i hi hk hr
    rw [Chunk.alloc_rawAt] at hr
    exact absurd rfl hr

theorem NoSent_alloc (V : Type) [Inhabited V] (n : Nat) :
    NoSent (Chunk.alloc_chunk V n) := by
  intro i _
  rw [Chunk.alloc_rawAt]
  simp [SENTINEL_VALUE]

theorem WF_occ_update {V : Type} {h : Nat → Nat} {c : Chunk V}
    (hwf : WF h c) (n : Nat) : WF h { c with occupation := n } :=
  ⟨hwf.entries_len, hwf.att_len, hwf.cap_pow, hwf.limit_eq, hwf.key0,
    hwf.no_prime, hwf.uniq, hwf.findable⟩

theorem NoSent_occ_update {V : Type} {c : Chunk V} (hns : NoSent c)
    (n : Nat) : NoSent { c with occupation := n } := hns

theorem liveRaw_occ_update {V : Type} (h : Nat → Nat) (c : Chunk V)
    (n q : Nat) : liveRaw h { c with occupation := n } q = liveRaw h c q :=
  rfl

theorem check_resize_noneed {V : Type} [Inhabited V] (h : Nat → Nat)
    {t : Table V} (hle : t.chunk.occupation ≤ t.chunk.occu_limit) :
    Table.check_resize h t = some (ResizeResult.NoNeed, t) := by
  unfold Table.check_resize
  rw [if_pos hle]

theorem check_resize_eq {V : Type} [Inhabited V] (h : Nat → Nat)
    (t : Table V) (hover : ¬ t.chunk.occupation ≤ t.chunk.occu_limit) :
    Table.check_resize h t =
      (match migrate_loop h t.chunk.capacity t.chunk
          (Chunk.alloc_chunk V (t.chunk.capacity <<<
            (if t.chunk.capacity < 2048 then 4 else 1))) 0 0 with
      | none => none
      | some (_, new_fin, effective_copy) =>
        some (ResizeResult.Done,
          { chunk := { new_fin with
              occupation := new_fin.occupation + effective_copy }
            new_chunk := none })) := by
  unfold Table.check_resize
  rw [if_neg hover]

theorem check_resize_spec {V : Type} [Inhabited V] {h : Nat → Nat}
    {t : Table V} (hinv : Inv h t)
    (hover : ¬ t.chunk.occupation ≤ t.chunk.occu_limit) :
    ∃ t', Table.check_resize h t = some (ResizeResult.Done, t') ∧
      Inv h t' ∧
      t'.chunk.occupation ≤ t'.chunk.occu_limit ∧
      (∀ q, liveRaw h t'.chunk q = liveRaw h t.chunk q) ∧
      t'.chunk.capacity = t.chunk.capacity <<<
        (if t.chunk.capacity < 2048 then 4 else 1) ∧
      t.chunk.capacity < t'.chunk.capacity := by
  obtain ⟨hwf, hocc, hns, hq⟩ := hinv
  obtain ⟨m, hm⟩ := hwf.cap_pow
  have hpos : 0 < t.chunk.capacity := cap_pos hwf.cap_pow
  have hmult1 : 1 ≤ (if t.chunk.capacity < 2048 then 4 else 1) := by
    split <;> omega
  have hshift : t.chunk.capacity <<< (if t.chunk.capacity < 2048 then 4 else 1)
      = t.chunk.capacity * 2 ^ (if t.chunk.capacity < 2048 then 4 else 1) :=
    Nat.shiftLeft_eq _ _
  have h2pow : 2 ≤ 2 ^ (if t.chunk.capacity < 2048 then 4 else 1) := by
    calc (2 : Nat) = 2 ^ 1 := by norm_num
      _ ≤ 2 ^ (if t.chunk.capacity < 2048 then 4 else 1) :=
          Nat.pow_le_pow_right (by norm_num) hmult1
  have hcap2 : 2 * t.chunk.capacity ≤
      t.chunk.capacity <<< (if t.chunk.capacity < 2048 then 4 else 1) := by
    rw [hshift]
    calc 2 * t.chunk.capacity = t.chunk.capacity * 2 := by ring
      _ ≤ t.chunk.capacity * 2 ^ (if t.chunk.capacity < 2048 then 4 else 1) :=
          Nat.mul_le_mul_left _ h2pow
  have hcaplt : t.chunk.capacity <
      t.chunk.capacity <<< (if t.chunk.capacity < 2048 then 4 else 1) := by
    omega
  have hnewPow : ∃ k,
      t.chunk.capacity <<< (if t.chunk.capacity < 2048 then 4 else 1) =
        2 ^ k := by
    refine ⟨m + (if t.chunk.capacity < 2048 then 4 else 1), ?_⟩
    rw [hshift, hm, ← Nat.pow_add]
  have hwfF := WF_alloc (V := V) h hnewPow
  have hfreshcap : (Chunk.alloc_chunk V (t.chunk.capacity <<<
      (if t.chunk.capacity < 2048 then 4 else 1))).capacity =
      t.chunk.capacity <<< (if t.chunk.capacity < 2048 then 4 else 1) := rfl
  obtain ⟨oldFin, ncFin, effFin, heq, hwfN, hnsN, hcapN, hoccN, hcntN,
    heffN, haN, hbN⟩ :=
    migrate_loop_spec hwf hns t.chunk.capacity 0 t.chunk
      (Chunk.alloc_chunk V (t.chunk.capacity <<<
        (if t.chunk.capacity < 2048 then 4 else 1)))
      0 (by omega) (fun j => rfl) (fun j _ => rfl) hwfF
      (NoSent_alloc V _) (by rw [hfreshcap]; exact hcaplt)
      (countKeys_alloc V _) (by omega)
      (by intro j hj; omega)
      (by
        intro q r hqr
        have hnone : liveRaw h (Chunk.alloc_chunk V (t.chunk.capacity <<<
            (if t.chunk.capacity < 2048 then 4 else 1))) q = none := by
          rw [liveRaw_none_iff (by rw [hfreshcap]; omega)]
          intro i _ _
          simp
        rw [hnone] at hqr
        cases hqr)
  have hocc0 : ncFin.occupation = 0 := hoccN
  refine ⟨{ chunk := { ncFin with occupation := ncFin.occupation + effFin }
            new_chunk := none }, ?_, ?_, ?_, ?_, ?_, ?_⟩
  · rw [check_resize_eq h t hover, heq]
  · refine ⟨WF_occ_update hwfN _, ?_, NoSent_occ_update hnsN _, rfl⟩
    show ncFin.occupation + effFin = countKeys ncFin
    omega
  · show ncFin.occupation + effFin ≤ ncFin.occu_limit
    have hlim : ncFin.occu_limit = occupation_limit ncFin.capacity :=
      hwfN.limit_eq
    rw [hlim, hcapN, hfreshcap]
    have heffcap : effFin ≤ t.chunk.capacity := by omega
    unfold occupation_limit
    have h2 : t.chunk.capacity ≤ t.chunk.capacity * 2 * 7 / 10 := by
      rw [Nat.le_div_iff_mul_le (by norm_num)]
      omega
    have h1 : t.chunk.capacity * 2 * 7 ≤
        (t.chunk.capacity <<< (if t.chunk.capacity < 2048 then 4 else 1)) * 7 := by
      have := hcap2
      omega
    calc ncFin.occupation + effFin = effFin := by omega
      _ ≤ t.chunk.capacity := heffcap
      _ ≤ t.chunk.capacity * 2 * 7 / 10 := h2
      _ ≤ (t.chunk.capacity <<<
            (if t.chunk.capacity < 2048 then 4 else 1)) * 7 / 10 :=
          Nat.div_le_div_right h1
  · intro q
    rw [liveRaw_occ_update]
    cases hl : liveRaw h t.chunk q with
    | some r =>
      obtain ⟨tq, htq, hkq, hrq, hne⟩ := liveRaw_some_elim hl
      have hq0 : q ≠ 0 := by
        intro h0
        apply hne
        rw [← hrq]
        exact hwf.key0 _ (slotIdx_lt hpos h q tq) (by rw [hkq, h0])
      have hjq := haN (slotIdx h t.chunk.capacity q tq)
        (by rw [Nat.zero_add]; exact slotIdx_lt hpos h q tq)
        (by rw [hkq]; exact hq0)
        (by rw [hrq]; exact hne)
      rw [hkq, hrq] at hjq
      exact hjq
    | none =>
      cases hl2 : liveRaw h ncFin q with
      | none => rfl
      | some r =>
        obtain ⟨j, hj, hkj, hrj, hnej⟩ := hbN q r hl2
        rw [liveRaw_none_iff hpos] at hl
        exact absurd (hl j (by omega) hkj) hnej
  · show ncFin.capacity = t.chunk.capacity <<< _
    rw [hcapN, hfreshcap]
  · show t.chunk.capacity < ncFin.capacity
    rw [hcapN, hfreshcap]
    exact hcaplt


/-! Table.insert on a quiescent invariant-satisfying table. -/

theorem exists_empty_of_under_limit {V : Type} {h : Nat → Nat}
    {c : Chunk V} (hwf : WF h c) (hocc : OccCnt c)
    (hle : c.occupation ≤ c.occu_limit) :
    ∃ i < c.capacity, c.keyAt i = 0 := by
  have hpos : 0 < c.capacity := cap_pos hwf.cap_pow
  have hlim : c.occu_limit = occupation_limit c.capacity := hwf.limit_eq
  have hlt : occupation_limit c.capacity < c.capacity := by
    unfold occupation_limit
    rw [Nat.div_lt_iff_lt_mul (by norm_num)]
    omega
  have hoc : c.occupation = countKeys c := hocc
  have hcnt : countKeys c < c.entries.length := by
    rw [hwf.entries_len]
    omega
  obtain ⟨i, hi, hk⟩ := exists_empty_of_count_lt c hcnt
  exact ⟨i, by rw [← hwf.entries_len]; exact hi, hk⟩

/-- One unfolding of insert_fueled when the table is quiescent and under
the occupancy limit: check_resize reports NoNeed and the core modify step
runs on the current chunk. -/
theorem insert_fueled_noneed_eq {V : Type} [Inhabited V] (h : Nat → Nat)
    (fuel : Nat) (t : Table V) (key value : Nat) (a : V)
    (hq : t.new_chunk = none)
    (hle : t.chunk.occupation ≤ t.chunk.occu_limit) :
    Table.insert_fueled h (fuel + 1) t key value a =
      (match modify_entry h t.chunk key
          (ModOp.Insert (value &&& VAL_BIT_MASK) a) with
       | st =>
       match st.out.result with
       | ModResult.Done _ =>
         some (none,
           { chunk := { st.chunk with
               occupation := st.chunk.occupation + 1 }
             new_chunk := none })
       | ModResult.Replaced v =>
         some (some v,
           { chunk := { st.chunk with
               occupation := st.chunk.occupation + 1 }
             new_chunk := none })
       | ModResult.Fail v =>
         some (some v,
           { chunk := { st.chunk with
               occupation := st.chunk.occupation + 1 }
             new_chunk := none })
       | ModResult.TableFull => none
       | ModResult.Sentinel =>
         some (none, { chunk := st.chunk, new_chunk := none })
       | ModResult.NotFound => none) := by
  simp only [Table.insert_fueled]
  rw [hq, check_resize_noneed h hle]

/-- One unfolding of insert_fueled when the table is quiescent but over
the occupancy limit and check_resize resizes: insert retries on the
resized table. -/
theorem insert_fueled_resize_eq {V : Type} [Inhabited V] (h : Nat → Nat)
    (fuel : Nat) (t t1 : Table V) (key value : Nat) (a : V)
    (hq : t.new_chunk = none)
    (hcr : Table.check_resize h t = some (ResizeResult.Done, t1)) :
    Table.insert_fueled h (fuel + 1) t key value a =
      Table.insert_fueled h fuel t1 key value a := by
  simp only [Table.insert_fueled]
  rw [hq, hcr]

/-- The core insert step on a quiescent under-limit table: it succeeds,
returns the previously live payload, stores the value live for the key,
keeps all other keys, preserves the invariant and the capacity, and bumps
occupation by one. -/
theorem insert_step_spec {V : Type} [Inhabited V] {h : Nat → Nat}
    {t : Table V} (hinv : Inv h t)
    (hle : t.chunk.occupation ≤ t.chunk.occu_limit)
    {key : Nat} (hkey : key ≠ 0) {value : Nat} (hv2 : 2 ≤ value)
    (hvlt : value < 2 ^ 63) (a : V) (fuel : Nat) :
    ∃ t', Table.insert_fueled h (fuel + 1) t key value a =
        some (liveRaw h t.chunk key, t') ∧
      Inv h t' ∧
      liveRaw h t'.chunk key = some value ∧
      (∀ q, q ≠ key → liveRaw h t'.chunk q = liveRaw h t.chunk q) ∧
      t'.chunk.capacity = t.chunk.capacity ∧
      t'.chunk.occupation = t.chunk.occupation + 1 := by
  obtain ⟨hwf, hocc, hns, hq⟩ := hinv
  have hpos : 0 < t.chunk.capacity := cap_pos hwf.cap_pow
  have hmask : value &&& VAL_BIT_MASK = value := and_val_mask_of_lt hvlt
  have hv0 : value ≠ 0 := by omega
  have hvs : value ≠ SENTINEL_VALUE := by
    have h1 : SENTINEL_VALUE = 1 := rfl
    omega
  have hempty : ∃ i < t.chunk.capacity, t.chunk.keyAt i = 0 :=
    exists_empty_of_under_limit hwf hocc hle
  have hoc : t.chunk.occupation = countKeys t.chunk := hocc
  cases hl : liveRaw h t.chunk key with
  | none =>
    have hnolive : ∀ i < t.chunk.capacity, t.chunk.keyAt i = key →
        t.chunk.rawAt i = 0 := (liveRaw_none_iff hpos).1 hl
    obtain ⟨te, hte, hpe, hmin, hclaim⟩ := modify_claim_spec hwf hkey
      hnolive hempty (w := value) (a := a) (Or.inl rfl)
    have hselen : slotIdx h t.chunk.capacity key te < t.chunk.entries.length := by
      rw [hwf.entries_len]
      exact slotIdx_lt hpos h key te
    refine
      ⟨{ chunk := { (t.chunk.setEntry (slotIdx h t.chunk.capacity key te)
             key value).setAtt (slotIdx h t.chunk.capacity key te) a with
           occupation :=
             ((t.chunk.setEntry (slotIdx h t.chunk.capacity key te)
               key value).setAtt
               (slotIdx h t.chunk.capacity key te) a).occupation + 1 }
         new_chunk := none }, ?_, ⟨?_, ?_, ?_, rfl⟩, ?_, ?_, rfl, rfl⟩
    · rw [insert_fueled_noneed_eq h fuel t key value a hq hle, hmask,
        hclaim]
    · exact WF_occ_update (WF_claim hwf hkey hv0 hvlt hte hpe hmin hnolive a) _
    · have hcc : countKeys ((t.chunk.setEntry
          (slotIdx h t.chunk.capacity key te) key value).setAtt
          (slotIdx h t.chunk.capacity key te) a) = countKeys t.chunk + 1 := by
        rw [countKeys_setAtt, countKeys_setEntry_new t.chunk hselen hpe hkey
          value]
      have hoc0 : ((t.chunk.setEntry (slotIdx h t.chunk.capacity key te)
          key value).setAtt (slotIdx h t.chunk.capacity key te) a).occupation =
          t.chunk.occupation := rfl
      show ((t.chunk.setEntry (slotIdx h t.chunk.capacity key te)
          key value).setAtt (slotIdx h t.chunk.capacity key te) a).occupation
          + 1 = countKeys ((t.chunk.setEntry
          (slotIdx h t.chunk.capacity key te) key value).setAtt
          (slotIdx h t.chunk.capacity key te) a)
      rw [hoc0, hcc]
      omega
    · exact NoSent_occ_update (NoSent_claim hns hselen hvs a) _
    · rw [liveRaw_occ_update]
      exact liveRaw_claim_self hwf hkey hv0 hte hpe hnolive a
    · intro q hq2
      rw [liveRaw_occ_update]
      exact liveRaw_claim_other hwf hkey value hte hpe a hq2
  | some r0 =>
    obtain ⟨t0, ht0, hk0, hr0, hne0⟩ := liveRaw_some_elim hl
    have hr1 : r0 ≠ 1 := fun he =>
      hns _ (slotIdx_lt hpos h key t0) (by rw [hr0, he]; rfl)
    have hrlt : r0 < 2 ^ 63 := by
      rw [← hr0]
      exact hwf.no_prime _ (slotIdx_lt hpos h key t0)
    obtain ⟨te, ht0te, hte, hpe, hmin, hrepl⟩ := modify_replace_spec hwf hkey
      ht0 hk0 hr0 hne0 hr1 hrlt hempty value a
    have hs0len : slotIdx h t.chunk.capacity key t0 < t.chunk.entries.length := by
      rw [hwf.entries_len]
      exact slotIdx_lt hpos h key t0
    have hwf1 : WF h (t.chunk.setRaw (slotIdx h t.chunk.capacity key t0) 0) :=
      WF_setRaw_zero hwf _
    have hns1 : NoSent (t.chunk.setRaw (slotIdx h t.chunk.capacity key t0) 0) :=
      NoSent_setRaw_zero hns _
    have hnolive1 : ∀ i <
        (t.chunk.setRaw (slotIdx h t.chunk.capacity key t0) 0).capacity,
        (t.chunk.setRaw (slotIdx h t.chunk.capacity key t0) 0).keyAt i = key →
        (t.chunk.setRaw (slotIdx h t.chunk.capacity key t0) 0).rawAt i = 0 := by
      intro i hi hk
      rw [Chunk.capacity_setRaw] at hi
      rw [Chunk.keyAt_setRaw] at hk
      by_cases his : i = slotIdx h t.chunk.capacity key t0
      · subst his
        exact Chunk.rawAt_setRaw_self t.chunk hs0len 0
      · rw [Chunk.rawAt_setRaw_ne t.chunk (Ne.symm his) 0]
        rcases hwf.uniq i hi (slotIdx h t.chunk.capacity key t0)
          (slotIdx_lt hpos h key t0) his (by rw [hk]; exact hkey)
          (hk.trans hk0.symm) with hzi | hzs
        · exact hzi
        · rw [hr0] at hzs
          exact absurd hzs hne0
    have hpe1 : (t.chunk.setRaw (slotIdx h t.chunk.capacity key t0) 0).keyAt
        (slotIdx h t.chunk.capacity key te) = 0 := by
      rw [Chunk.keyAt_setRaw]
      exact hpe
    have hmin1 : ∀ u < te,
        (t.chunk.setRaw (slotIdx h t.chunk.capacity key t0) 0).keyAt
          (slotIdx h t.chunk.capacity key u) ≠ 0 := by
      intro u hu
      rw [Chunk.keyAt_setRaw]
      exact hmin u hu
    have hselen1 : slotIdx h t.chunk.capacity key te <
        (t.chunk.setRaw (slotIdx h t.chunk.capacity key t0) 0).entries.length := by
      rw [hwf1.entries_len]
      exact slotIdx_lt hpos h key te
    refine
      ⟨{ chunk := { ((t.chunk.setRaw (slotIdx h t.chunk.capacity key t0)
             0).setEntry (slotIdx h t.chunk.capacity key te) key value).setAtt
             (slotIdx h t.chunk.capacity key te) a with
           occupation :=
             (((t.chunk.setRaw (slotIdx h t.chunk.capacity key t0)
               0).setEntry (slotIdx h t.chunk.capacity key te) key
               value).setAtt
               (slotIdx h t.chunk.capacity key te) a).occupation + 1 }
         new_chunk := none }, ?_, ⟨?_, ?_, ?_, rfl⟩, ?_, ?_, rfl, rfl⟩
    · rw [insert_fueled_noneed_eq h fuel t key value a hq hle, hmask,
        hrepl]
    · exact WF_occ_update
        (WF_claim hwf1 hkey hv0 hvlt hte hpe1 hmin1 hnolive1 a) _
    · have hcc : countKeys (((t.chunk.setRaw
          (slotIdx h t.chunk.capacity key t0) 0).setEntry
          (slotIdx h t.chunk.capacity key te) key value).setAtt
          (slotIdx h t.chunk.capacity key te) a) = countKeys t.chunk + 1 := by
        rw [countKeys_setAtt, countKeys_setEntry_new
          (t.chunk.setRaw (slotIdx h t.chunk.capacity key t0) 0) hselen1 hpe1
          hkey value, countKeys_setRaw]
      have hoc0 : ((((t.chunk.setRaw (slotIdx h t.chunk.capacity key t0)
          0).setEntry (slotIdx h t.chunk.capacity key te) key value).setAtt
          (slotIdx h t.chunk.capacity key te) a)).occupation =
          t.chunk.occupation := rfl
      show ((((t.chunk.setRaw (slotIdx h t.chunk.capacity key t0)
          0).setEntry (slotIdx h t.chunk.capacity key te) key value).setAtt
          (slotIdx h t.chunk.capacity key te) a)).occupation + 1 =
          countKeys ((((t.chunk.setRaw (slotIdx h t.chunk.capacity key t0)
          0).setEntry (slotIdx h t.chunk.capacity key te) key value).setAtt
          (slotIdx h t.chunk.capacity key te) a))
      rw [hoc0, hcc]
      omega
    · exact NoSent_occ_update (NoSent_claim hns1 hselen1 hvs a) _
    · rw [liveRaw_occ_update]
      exact liveRaw_claim_self hwf1 hkey hv0 hte hpe1 hnolive1 a
    · intro q hq2
      rw [liveRaw_occ_update]
      exact (liveRaw_claim_other hwf1 hkey value hte hpe1 a hq2).trans
        (liveRaw_setRaw_other hk0 hq2)

/-- Table.insert on a quiescent invariant-satisfying table with a valid
key and payload: it succeeds, returns the previously live payload, stores
the value live for the key, keeps all other keys, and preserves the
invariant; the capacity never shrinks, and when no resize happened the
occupation counter advances by exactly one. -/
theorem insert_spec {V : Type} [Inhabited V] {h : Nat → Nat}
    {t : Table V} (hinv : Inv h t) {key : Nat} (hkey : key ≠ 0)
    {value : Nat} (hv2 : 2 ≤ value) (hvlt : value < 2 ^ 63) (a : V) :
    ∃ t', Table.insert h t key value a =
        some (liveRaw h t.chunk key, t') ∧
      Inv h t' ∧
      liveRaw h t'.chunk key = some value ∧
      (∀ q, q ≠ key → liveRaw h t'.chunk q = liveRaw h t.chunk q) ∧
      t.chunk.capacity ≤ t'.chunk.capacity ∧
      (t'.chunk.capacity = t.chunk.capacity →
        t'.chunk.occupation = t.chunk.occupation + 1) := by
  by_cases hle : t.chunk.occupation ≤ t.chunk.occu_limit
  · obtain ⟨t', he, hi, hs, ho, hcap, hoc⟩ :=
      insert_step_spec hinv hle hkey hv2 hvlt a 1
    exact ⟨t', he, hi, hs, ho, by rw [hcap], fun _ => hoc⟩
  · obtain ⟨t1, hcr, hinv1, hle1, hlr1, hcap1, hlt1⟩ :=
      check_resize_spec hinv hle
    obtain ⟨t', he, hi2, hs, ho, hcapeq, hoc⟩ :=
      insert_step_spec hinv1 hle1 hkey hv2 hvlt a 0
    refine ⟨t', ?_, hi2, hs, ?_, ?_, ?_⟩
    · rw [← hlr1 key]
      exact (insert_fueled_resize_eq h 1 t t1 key value a hinv.quiescent
        hcr).trans he
    · intro q hq2
      exact (ho q hq2).trans (hlr1 q)
    · omega
    · intro hc
      exact absurd (hc.symm.trans hcapeq) (Nat.ne_of_lt hlt1)


/-! Table.remove on a quiescent invariant-satisfying table. -/

/-- Table.remove on a quiescent invariant-satisfying table: it succeeds
without panicking, reports the previously live payload, leaves the key
with no live value, keeps all other keys, and preserves the invariant,
capacity, and occupation counter. -/
theorem remove_spec {V : Type} [Inhabited V] {h : Nat → Nat}
    {t : Table V} (hinv : Inv h t) (key : Nat) :
    ∃ r t', Table.remove h t key = some (r, t') ∧
      Inv h t' ∧
      Option.map Prod.fst r = liveRaw h t.chunk key ∧
      liveRaw h t'.chunk key = none ∧
      (∀ q, q ≠ key → liveRaw h t'.chunk q = liveRaw h t.chunk q) ∧
      t'.chunk.capacity = t.chunk.capacity ∧
      t'.chunk.occupation = t.chunk.occupation := by
  obtain ⟨hwf, hocc, hns, hq⟩ := hinv
  have hpos : 0 < t.chunk.capacity := cap_pos hwf.cap_pow
  by_cases hkey : key = 0
  · subst hkey
    have hl : liveRaw h t.chunk 0 = none :=
      (liveRaw_none_iff hpos).2 (fun i hi hk => hwf.key0 i hi hk)
    have hall : ∀ i < t.chunk.capacity, canSkip t.chunk 0 i :=
      fun i hi => ⟨fun hk => hwf.key0 i hi hk, fun hk => hk⟩
    have hex := modify_exhaust_spec (h := h) hwf.cap_pow hall
      (ModOp.Empty : ModOp V)
    refine ⟨none, { chunk := t.chunk, new_chunk := none }, ?_,
      ⟨hwf, hocc, hns, rfl⟩, by simp [hl], hl, fun q _ => rfl, rfl, rfl⟩
    unfold Table.remove
    rw [hq]
    simp only [hex]
  · cases hl : liveRaw h t.chunk key with
    | some r0 =>
      obtain ⟨t0, ht0, hk0, hr0, hne0⟩ := liveRaw_some_elim hl
      have hr1 : r0 ≠ 1 := fun he =>
        hns _ (slotIdx_lt hpos h key t0) (by rw [hr0, he]; rfl)
      have hrlt : r0 < 2 ^ 63 := by
        rw [← hr0]
        exact hwf.no_prime _ (slotIdx_lt hpos h key t0)
      have hfound := modify_empty_found_spec hwf ht0 hk0 hr0 hne0 hr1 hrlt
      have hs0len : slotIdx h t.chunk.capacity key t0 <
          t.chunk.entries.length := by
        rw [hwf.entries_len]
        exact slotIdx_lt hpos h key t0
      refine ⟨some (r0, (t.chunk.setRaw (slotIdx h t.chunk.capacity key t0)
          0).attachment.getD (slotIdx h t.chunk.capacity key t0) default),
        { chunk := t.chunk.setRaw (slotIdx h t.chunk.capacity key t0) 0
          new_chunk := none }, ?_,
        ⟨WF_setRaw_zero hwf _, ?_, NoSent_setRaw_zero hns _, rfl⟩, rfl, ?_,
        ?_, rfl, rfl⟩
      · unfold Table.remove
        rw [hq, hfound]
      · show (t.chunk.setRaw (slotIdx h t.chunk.capacity key t0) 0).occupation
          = countKeys (t.chunk.setRaw (slotIdx h t.chunk.capacity key t0) 0)
        rw [countKeys_setRaw]
        exact hocc
      · show liveRaw h (t.chunk.setRaw (slotIdx h t.chunk.capacity key t0) 0)
          key = none
        have hpos2 : 0 < (t.chunk.setRaw
            (slotIdx h t.chunk.capacity key t0) 0).capacity := hpos
        rw [liveRaw_none_iff hpos2]
        intro i hi hk
        rw [Chunk.keyAt_setRaw] at hk
        by_cases his : i = slotIdx h t.chunk.capacity key t0
        · subst his
          exact Chunk.rawAt_setRaw_self t.chunk hs0len 0
        · rw [Chunk.rawAt_setRaw_ne t.chunk (Ne.symm his) 0]
          rcases hwf.uniq i hi (slotIdx h t.chunk.capacity key t0)
            (slotIdx_lt hpos h key t0) his (by rw [hk]; exact hkey)
            (hk.trans hk0.symm) with hzi | hzs
          · exact hzi
          · rw [hr0] at hzs
            exact absurd hzs hne0
      · intro q hq2
        exact liveRaw_setRaw_other hk0 hq2
    | none =>
      have hnolive : ∀ i < t.chunk.capacity, t.chunk.keyAt i = key →
          t.chunk.rawAt i = 0 := (liveRaw_none_iff hpos).1 hl
      by_cases hemp : ∃ i < t.chunk.capacity, t.chunk.keyAt i = 0
      · obtain ⟨te, hte, hfail⟩ := modify_empty_fail_spec hwf hkey hnolive
          hemp
        refine ⟨none, { chunk := t.chunk, new_chunk := none }, ?_,
          ⟨hwf, hocc, hns, rfl⟩, rfl, hl, fun q _ => rfl, rfl, rfl⟩
        unfold Table.remove
        rw [hq, hfail]
      · push_neg at hemp
        have hall : ∀ i < t.chunk.capacity, canSkip t.chunk key i :=
          fun i hi => ⟨fun hk => hnolive i hi hk, fun _ => hemp i hi⟩
        have hex := modify_exhaust_spec (h := h) hwf.cap_pow hall
          (ModOp.Empty : ModOp V)
        refine ⟨none, { chunk := t.chunk, new_chunk := none }, ?_,
          ⟨hwf, hocc, hns, rfl⟩, rfl, hl, fun q _ => rfl, rfl, rfl⟩
        unfold Table.remove
        rw [hq]
        simp only [hex]


/-! Table.get against the liveRaw abstraction, and the reachability
invariant. -/

/-- Table.get on a quiescent invariant-satisfying table observes exactly
the live raw word of the key. -/
theorem get_spec {V : Type} [Inhabited V] {h : Nat → Nat} {t : Table V}
    (hinv : Inv h t) {key : Nat} (hkey : key ≠ 0) (ra : Bool) :
    Option.map Prod.fst (Table.get h t key ra) = liveRaw h t.chunk key := by
  obtain ⟨hwf, hocc, hns, hq⟩ := hinv
  have hpos : 0 < t.chunk.capacity := cap_pos hwf.cap_pow
  cases hl : liveRaw h t.chunk key with
  | some r0 =>
    obtain ⟨t0, ht0, hk0, hr0, hne0⟩ := liveRaw_some_elim hl
    have hr1 : r0 ≠ 1 := fun he =>
      hns _ (slotIdx_lt hpos h key t0) (by rw [hr0, he]; rfl)
    have hrlt : r0 < 2 ^ 63 := by
      rw [← hr0]
      exact hwf.no_prime _ (slotIdx_lt hpos h key t0)
    have hfound := get_found_spec hwf hkey ht0 hk0 (by rw [hr0]; exact hne0)
    have hparse : (Value.new r0).parsed = ParsedValue.Val r0 :=
      Value.new_parsed_val hrlt hne0 hr1
    unfold Table.get
    rw [hfound, hr0]
    simp only [hparse]
    rfl
  | none =>
    have hnolive : ∀ i < t.chunk.capacity, t.chunk.keyAt i = key →
        t.chunk.rawAt i = 0 := (liveRaw_none_iff hpos).1 hl
    have hnf := get_not_found_spec hwf hkey hnolive
    have hparse : (Value.new 0).parsed = ParsedValue.Empty := rfl
    unfold Table.get
    rw [hnf]
    simp only [hparse]
    rfl

/-- Every table reachable by a sequential run of with_capacity, valid
inserts and removes satisfies the quiescent invariant. -/
theorem reach_inv {V : Type} [Inhabited V] {h : Nat → Nat} {t : Table V}
    (hr : Reach h t) : Inv h t := by
  induction hr with
  | init cap t hw =>
    unfold Table.with_capacity at hw
    by_cases hp : is_power_of_2 cap
    · rw [if_pos hp] at hw
      cases hw
      refine ⟨WF_alloc h ((is_power_of_2_iff cap).1 hp), ?_,
        NoSent_alloc V cap, rfl⟩
      show (Chunk.alloc_chunk V cap).occupation =
        countKeys (Chunk.alloc_chunk V cap)
      rw [countKeys_alloc]
      rfl
    · rw [if_neg hp] at hw
      cases hw
  | insert t key value a r t1 hr2 hkey hv2 hvlt hins ih =>
    obtain ⟨t', he, hi, _⟩ := insert_spec ih hkey hv2 hvlt a
    rw [he] at hins
    simp only [Option.some.injEq, Prod.mk.injEq] at hins
    exact hins.2 ▸ hi
  | remove t key r t1 hr2 hrem ih =>
    obtain ⟨r2, t', he, hi, _⟩ := remove_spec ih key
    rw [he] at hrem
    simp only [Option.some.injEq, Prod.mk.injEq] at hrem
    exact hrem.2 ▸ hi


/-! Sequences of inserts. -/

theorem lastInsertOf_cons {V : Type} (op : Nat × Nat × V)
    (rest : List (Nat × Nat × V)) (key : Nat) :
    lastInsertOf (op :: rest) key =
      (match lastInsertOf rest key with
       | some v => some v
       | none => if op.1 = key then some op.2.1 else none) := by
  unfold lastInsertOf
  rw [List.filter_cons]
  by_cases hk : op.1 = key
  · rw [if_pos (by simp [hk] : (op.1 == key) = true)]
    cases hfl : (rest.filter (fun o => o.1 == key)).getLast? with
    | some x =>
      cases hl2 : rest.filter (fun o => o.1 == key) with
      | nil =>
        rw [hl2] at hfl
        simp at hfl
      | cons b l2 =>
        rw [hl2] at hfl
        rw [List.getLast?_cons_cons, hfl]
        rfl
    | none =>
      have hnil : rest.filter (fun o => o.1 == key) = [] := by
        cases hl2 : rest.filter (fun o => o.1 == key) with
        | nil => rfl
        | cons b l2 =>
          rw [hl2] at hfl
          have h2 := (List.getLast?_isSome (l := b :: l2)).2 (by simp)
          rw [hfl] at h2
          simp at h2
      rw [hnil, if_pos hk]
      rfl
  · rw [if_neg (by simp [hk] : ¬ ((op.1 == key) = true))]
    cases hfl : (rest.filter (fun o => o.1 == key)).getLast? with
    | some x => rfl
    | none =>
      rw [if_neg hk]
      rfl

/-- Running a list of valid inserts never panics, preserves the invariant,
and leaves each key holding the payload of its last insert in the list
(keys the list never inserts are untouched). -/
theorem runInserts_spec {V : Type} [Inhabited V] {h : Nat → Nat} :
    ∀ (ops : List (Nat × Nat × V)) {t : Table V}, Inv h t →
    (∀ op ∈ ops, op.1 ≠ 0 ∧ 2 ≤ op.2.1 ∧ op.2.1 < 2 ^ 63) →
    ∃ t', runInserts h t ops = some t' ∧ Inv h t' ∧
      ∀ k, k ≠ 0 → liveRaw h t'.chunk k =
        (match lastInsertOf ops k with
         | some v => some v
         | none => liveRaw h t.chunk k) := by
  intro ops
  induction ops with
  | nil =>
    intro t hinv _
    exact ⟨t, rfl, hinv, fun k _ => rfl⟩
  | cons op rest ih =>
    intro t hinv hvalid
    obtain ⟨hk0, hv2, hvlt⟩ := hvalid op (List.mem_cons_self _ _)
    obtain ⟨t1, he, hinv1, hself, hother, _, _⟩ :=
      insert_spec hinv hk0 hv2 hvlt op.2.2
    obtain ⟨t', he2, hinv2, hlast⟩ := ih hinv1
      (fun o ho => hvalid o (List.mem_cons_of_mem _ ho))
    refine ⟨t', ?_, hinv2, ?_⟩
    · show runInserts h t (op :: rest) = some t'
      unfold runInserts
      rw [he]
      exact he2
    · intro k hk
      rw [hlast k hk, lastInsertOf_cons]
      cases hro : lastInsertOf rest k with
      | some v => rfl
      | none =>
        by_cases hok : op.1 = k
        · rw [if_pos hok, ← hok]
          exact hself
        · rw [if_neg hok]
          exact hother k (fun he3 => hok he3.symm)


/-! Structural facts about the modify loop: iteration bound, preservation
of the occupation and capacity fields, and the result classification for
insert operations. -/

theorem modify_loop_steps_le {V : Type} [Inhabited V] (key : Nat)
    (op : ModOp V) : ∀ (fuel idx : Nat) (repl : Option Nat) (c : Chunk V),
    (modify_entry_loop key op fuel idx repl c).steps ≤ fuel := by
  intro fuel
  induction fuel with
  | zero =>
    intro idx repl c
    exact Nat.le_refl 0
  | succ f ih =>
    intro idx repl c
    simp only [modify_entry_loop]
    repeat' split
    all_goals
      first
      | exact Nat.succ_le_succ (ih _ _ _)
      | exact Nat.succ_le_succ (Nat.zero_le f)

theorem modify_loop_occ_cap {V : Type} [Inhabited V] (key : Nat)
    (op : ModOp V) : ∀ (fuel idx : Nat) (repl : Option Nat) (c : Chunk V),
    (modify_entry_loop key op fuel idx repl c).chunk.occupation =
      c.occupation ∧
    (modify_entry_loop key op fuel idx repl c).chunk.capacity =
      c.capacity := by
  intro fuel
  induction fuel with
  | zero =>
    intro idx repl c
    exact ⟨rfl, rfl⟩
  | succ f ih =>
    intro idx repl c
    simp only [modify_entry_loop]
    repeat' split
    all_goals
      first
      | exact ⟨rfl, rfl⟩
      | exact ih _ _ _

/-- The modify loop never leaves the occupation or the capacity of the
chunk changed (the caller alone moves the occupation counter). -/
theorem modify_entry_occ_cap {V : Type} [Inhabited V] (h : Nat → Nat)
    (c : Chunk V) (key : Nat) (op : ModOp V) :
    (modify_entry h c key op).chunk.occupation = c.occupation ∧
    (modify_entry h c key op).chunk.capacity = c.capacity := by
  unfold modify_entry
  constructor
  · exact (modify_loop_occ_cap key op _ _ _ _).1
  · exact (modify_loop_occ_cap key op _ _ _ _).2

theorem modify_loop_insert_result {V : Type} [Inhabited V] (key w : Nat)
    (a : V) : ∀ (fuel idx : Nat) (repl : Option Nat) (c : Chunk V),
    (modify_entry_loop key (ModOp.Insert w a) fuel idx repl c).out.result ≠
      ModResult.NotFound ∧
    ∀ v, (modify_entry_loop key (ModOp.Insert w a) fuel idx repl
      c).out.result ≠ ModResult.Fail v := by
  intro fuel
  induction fuel with
  | zero =>
    intro idx repl c
    exact ⟨fun hc => (nomatch hc), fun v hc => nomatch hc⟩
  | succ f ih =>
    intro idx repl c
    simp only [modify_entry_loop]
    repeat' split
    all_goals
      first
      | exact ih _ _ _
      | exact ⟨fun hc => (nomatch hc), fun v hc => nomatch hc⟩

/-- The outcome of one under-limit quiescent insert step: the table stays
quiescent, the capacity is unchanged, and the occupation counter moves up
by at most one. -/
theorem insert_step_cases {V : Type} [Inhabited V] {h : Nat → Nat}
    {t : Table V} (hq : t.new_chunk = none)
    (hle : t.chunk.occupation ≤ t.chunk.occu_limit)
    {fuel key value : Nat} {a : V} {r : Option Nat} {t' : Table V}
    (he : Table.insert_fueled h (fuel + 1) t key value a = some (r, t')) :
    t'.chunk.capacity = t.chunk.capacity ∧
    (t'.chunk.occupation = t.chunk.occupation ∨
      t'.chunk.occupation = t.chunk.occupation + 1) ∧
    t'.new_chunk = none := by
  rw [insert_fueled_noneed_eq h fuel t key value a hq hle] at he
  have hocc := (modify_entry_occ_cap h t.chunk key
    (ModOp.Insert (value &&& VAL_BIT_MASK) a)).1
  have hcap := (modify_entry_occ_cap h t.chunk key
    (ModOp.Insert (value &&& VAL_BIT_MASK) a)).2
  simp only [] at he
  split at he
  · simp only [Option.some.injEq, Prod.mk.injEq] at he
    rw [← he.2]
    exact ⟨hcap, Or.inr (by rw [hocc]), rfl⟩
  · simp only [Option.some.injEq, Prod.mk.injEq] at he
    rw [← he.2]
    exact ⟨hcap, Or.inr (by rw [hocc]), rfl⟩
  · simp only [Option.some.injEq, Prod.mk.injEq] at he
    rw [← he.2]
    exact ⟨hcap, Or.inr (by rw [hocc]), rfl⟩
  · cases he
  · simp only [Option.some.injEq, Prod.mk.injEq] at he
    rw [← he.2]
    exact ⟨hcap, Or.inl hocc, rfl⟩
  · cases he


/-! The claims. -/

/-- Claim C1 (corrected).  The insert/get roundtrip holds for every
sequence of inserts of valid payloads (non-zero key, payload at least 2
and below 2^63): after running the sequence from a freshly allocated
table, get observes the payload of the last insert of the key.  The
unrestricted claim is false: payloads 0 and 1 collide with the empty and
sentinel encodings (see the counterexample). -/
theorem C1_insert_get_valid {V : Type} [Inhabited V] (h : Nat → Nat)
    {cap : Nat} {t0 : Table V}
    (hW : Table.with_capacity V cap = some t0)
    (ops : List (Nat × Nat × V))
    (hvalid : ∀ op ∈ ops, op.1 ≠ 0 ∧ 2 ≤ op.2.1 ∧ op.2.1 < 2 ^ 63)
    {k v : Nat} (hk : k ≠ 0) (hlast : lastInsertOf ops k = some v)
    (ra : Bool) :
    ∃ t', runInserts h t0 ops = some t' ∧
      Option.map Prod.fst (Table.get h t' k ra) = some v := by
  have hinv : Inv h t0 := reach_inv (Reach.init cap t0 hW)
  obtain ⟨t', he, hinv2, hlr⟩ := runInserts_spec ops hinv hvalid
  refine ⟨t', he, ?_⟩
  rw [get_spec hinv2 hk ra, hlr k hk, hlast]

/-- Witness for C1: inserting 9 at key 5 into a fresh capacity-2 table
and reading it back yields 9. -/
theorem C1_insert_get_valid_witness :
    Table.with_capacity Unit 2 = some tableTwo ∧
    lastInsertOf [(5, 9, ())] 5 = some 9 ∧
    ∃ t', runInserts (fun k => k) tableTwo [(5, 9, ())] = some t' ∧
      Option.map Prod.fst (Table.get (fun k => k) t' 5 false) = some 9 :=
  ⟨rfl, by decide,
    C1_insert_get_valid (fun k => k)
      (rfl : Table.with_capacity Unit 2 = some tableTwo)
      [(5, 9, ())] (by decide) (k := 5) (v := 9) (by decide) (by decide)
      false⟩

/-- Counterexample to the unrestricted C1: inserting payload 1 stores the
sentinel word, and the following get of the same key observes nothing. -/
theorem C1_roundtrip_counterexample :
    Table.insert (fun k => k) tableTwo 5 1 () = some (none, tableTwoSent) ∧
    Table.get (fun k => k) tableTwoSent 5 false = none := by
  constructor
  · rfl
  · rfl

/-- Claim C2 (confirmed).  Value::new decodes every machine word into
exactly one of the four states: 0 is Empty/Tombstone, a word with the
high bit set is Prime with the payload stripped of the high bit, the
word 1 is Sentinel, and everything else is Live with payload equal to
the raw word. -/
theorem C2_value_codec (raw : Nat) (hraw : raw < 2 ^ 64) :
    (Value.new raw).parsed =
      (if raw = 0 then ParsedValue.Empty
       else if 2 ^ 63 ≤ raw then ParsedValue.Prime (raw % 2 ^ 63)
       else if raw = 1 then ParsedValue.Sentinel
       else ParsedValue.Val raw) := by
  by_cases hhi : 2 ^ 63 ≤ raw
  · have h0 : raw ≠ 0 := by
      have hp : (2 : Nat) ^ 63 = 9223372036854775808 := by norm_num
      omega
    have hne : raw &&& INV_BIT_MASK ≠ 0 := and_inv_mask_ne_zero hhi hraw
    rw [Value.new_parsed, if_neg h0, if_pos hne, and_val_mask,
      if_neg h0, if_pos hhi]
  · push_neg at hhi
    rw [Value.new_parsed_lo hhi]
    by_cases h0 : raw = 0
    · rw [if_pos h0, if_pos h0]
    · rw [if_neg h0, if_neg h0, if_neg (Nat.not_le.2 hhi)]

/-- Witness for C2: the codec at the live word 5. -/
theorem C2_value_codec_witness :
    5 < 2 ^ 64 ∧
    (Value.new 5).parsed =
      (if 5 = 0 then ParsedValue.Empty
       else if 2 ^ 63 ≤ 5 then ParsedValue.Prime (5 % 2 ^ 63)
       else if 5 = 1 then ParsedValue.Sentinel
       else ParsedValue.Val 5) :=
  ⟨by norm_num, C2_value_codec 5 (by norm_num)⟩

/-- Claim C3 (confirmed).  When check_resize grows an over-occupied
quiescent chunk, the new capacity is old capacity times 16 when the old
capacity is below 2048, and twice the old capacity otherwise. -/
theorem C3_grow_policy {V : Type} [Inhabited V] {h : Nat → Nat}
    {t : Table V} (hinv : Inv h t)
    (hover : ¬ t.chunk.occupation ≤ t.chunk.occu_limit) :
    ∃ t', Table.check_resize h t = some (ResizeResult.Done, t') ∧
      t'.chunk.capacity =
        (if t.chunk.capacity < 2048 then t.chunk.capacity * 16
         else t.chunk.capacity * 2) := by
  obtain ⟨t', he, _, _, _, hcap, _⟩ := check_resize_spec hinv hover
  refine ⟨t', he, ?_⟩
  rw [hcap, Nat.shiftLeft_eq]
  by_cases hc : t.chunk.capacity < 2048
  · rw [if_pos hc, if_pos hc]
  · rw [if_neg hc, if_neg hc]

/-- Witness for C3: resizing the over-occupied capacity-1 table tableGrow
multiplies the capacity by 16. -/
theorem C3_grow_policy_witness :
    (¬ tableGrow.chunk.occupation ≤ tableGrow.chunk.occu_limit) ∧
    ∃ t', Table.check_resize (fun k => k) tableGrow =
        some (ResizeResult.Done, t') ∧
      t'.chunk.capacity =
        (if tableGrow.chunk.capacity < 2048 then
          tableGrow.chunk.capacity * 16
         else tableGrow.chunk.capacity * 2) :=
  ⟨by decide,
    C3_grow_policy
      ⟨⟨rfl, rfl, ⟨0, rfl⟩, rfl, by decide, by decide, by decide, by decide⟩,
        (by decide : tableGrow.chunk.occupation = countKeys tableGrow.chunk),
        (by decide : ∀ i < tableGrow.chunk.capacity,
          tableGrow.chunk.rawAt i ≠ SENTINEL_VALUE), rfl⟩
      (by decide)⟩

/-- Claim C4 (corrected).  The modify_entry walk executes at most
capacity + 1 iterations of the probe loop (one more than the
specification's "up to capacity steps": the loop guard is
count <= cap), and when every slot is skippable the budget is exhausted
after exactly capacity + 1 iterations with TableFull reported for
Insert/AttemptInsert and NotFound for the other operations. -/
theorem C4_probe_budget {V : Type} [Inhabited V] (h : Nat → Nat)
    (c : Chunk V) (key : Nat) (op : ModOp V) :
    (modify_entry h c key op).steps ≤ c.capacity + 1 ∧
    ((∃ m, c.capacity = 2 ^ m) → (∀ i < c.capacity, canSkip c key i) →
      (modify_entry h c key op).steps = c.capacity + 1 ∧
      (modify_entry h c key op).out.result =
        (match op with
         | ModOp.Insert _ _ => ModResult.TableFull
         | ModOp.AttemptInsert _ _ => ModResult.TableFull
         | _ => ModResult.NotFound)) := by
  constructor
  · unfold modify_entry
    exact modify_loop_steps_le key op _ _ _ _
  · intro hpow hall
    rw [modify_exhaust_spec hpow hall op]
    exact ⟨rfl, rfl⟩

/-- Witness for C4: a full capacity-1 chunk exhausts the probe budget of
an insert in exactly 2 = capacity + 1 iterations with TableFull. -/
theorem C4_probe_budget_witness :
    (∀ i < chunkOneFull.capacity, canSkip chunkOneFull 5 i) ∧
    (modify_entry (fun k => k) chunkOneFull 5
      (ModOp.Insert 9 ())).steps = chunkOneFull.capacity + 1 ∧
    (modify_entry (fun k => k) chunkOneFull 5
      (ModOp.Insert 9 ())).out.result = ModResult.TableFull :=
  ⟨(by decide : ∀ i < chunkOneFull.capacity,
      (chunkOneFull.keyAt i = 5 → chunkOneFull.rawAt i = 0) ∧
      (chunkOneFull.keyAt i ≠ 5 → chunkOneFull.keyAt i ≠ 0)),
    (C4_probe_budget (fun k => k) chunkOneFull 5 (ModOp.Insert 9 ())).2
      ⟨0, rfl⟩
      (by decide : ∀ i < chunkOneFull.capacity,
        (chunkOneFull.keyAt i = 5 → chunkOneFull.rawAt i = 0) ∧
        (chunkOneFull.keyAt i ≠ 5 → chunkOneFull.keyAt i ≠ 0))⟩

/-- Counterexample to the capacity-step budget of C4: on the full
capacity-1 chunk the walk takes 2 iterations, exceeding the stated
budget of capacity = 1 steps. -/
theorem C4_budget_counterexample :
    (modify_entry (fun k => k) chunkOneFull 5
      (ModOp.Insert 9 ())).steps = chunkOneFull.capacity + 1 ∧
    ¬ (modify_entry (fun k => k) chunkOneFull 5
      (ModOp.Insert 9 ())).steps ≤ chunkOneFull.capacity := by decide

/-- Claim C5 (confirmed).  When the probe of an insert lands on a
sentinel, the insert aborts: it reports an absent prior value and the
table is unchanged (nothing written, occupation not incremented). -/
theorem C5_sentinel_abort {V : Type} [Inhabited V] {h : Nat → Nat}
    {t : Table V} (hwf : WF h t.chunk) (hq : t.new_chunk = none)
    (hle : t.chunk.occupation ≤ t.chunk.occu_limit)
    {key t0 : Nat} (ht0 : t0 < t.chunk.capacity)
    (hk0 : t.chunk.keyAt (slotIdx h t.chunk.capacity key t0) = key)
    (hr1 : t.chunk.rawAt (slotIdx h t.chunk.capacity key t0) =
      SENTINEL_VALUE)
    (value : Nat) (a : V) :
    Table.insert h t key value a = some (none, t) := by
  have hsent := modify_sentinel_hit_spec hwf ht0 hk0 hr1
    (ModOp.Insert (value &&& VAL_BIT_MASK) a)
  show Table.insert_fueled h (1 + 1) t key value a = some (none, t)
  rw [insert_fueled_noneed_eq h 1 t key value a hq hle, hsent, ← hq]

/-- Witness for C5: inserting key 7 into tableSent, whose probed slot
holds the sentinel word, returns absent and leaves the table unchanged. -/
theorem C5_sentinel_abort_witness :
    tableSent.chunk.rawAt (slotIdx (fun k => k) tableSent.chunk.capacity
      7 0) = SENTINEL_VALUE ∧
    Table.insert (fun k => k) tableSent 7 42 () = some (none, tableSent) :=
  ⟨by decide,
    C5_sentinel_abort (t := tableSent)
      ⟨rfl, rfl, ⟨1, rfl⟩, rfl, by decide, by decide, by decide, by decide⟩
      rfl (by decide)
      (by decide : (0 : Nat) < tableSent.chunk.capacity)
      (by decide : tableSent.chunk.keyAt
        (slotIdx (fun k => k) tableSent.chunk.capacity 7 0) = 7)
      (by decide) 42 ()⟩

/-- Claim C6 (corrected).  with_capacity succeeds exactly on powers of
two and allocates a chunk of exactly the requested capacity, and every
chunk a resize creates has a power-of-two capacity of at least 2; but
the "at least 2" part fails for with_capacity itself: capacity 1 is a
power of two and is accepted (see the counterexample). -/
theorem C6_with_capacity (V : Type) [Inhabited V] (cap : Nat) :
    ((∃ t, Table.with_capacity V cap = some t) ↔ (∃ m, cap = 2 ^ m)) ∧
    (∀ t, Table.with_capacity V cap = some t → t.chunk.capacity = cap) ∧
    (∀ (h : Nat → Nat) (t t' : Table V), Inv h t →
      Table.check_resize h t = some (ResizeResult.Done, t') →
      (∃ m, t'.chunk.capacity = 2 ^ m) ∧ 2 ≤ t'.chunk.capacity) := by
  refine ⟨⟨?_, ?_⟩, ?_, ?_⟩
  · rintro ⟨t, ht⟩
    unfold Table.with_capacity at ht
    by_cases hp : is_power_of_2 cap = true
    · exact (is_power_of_2_iff cap).1 hp
    · rw [if_neg hp] at ht
      cases ht
  · intro hm
    unfold Table.with_capacity
    rw [if_pos ((is_power_of_2_iff cap).2 hm)]
    exact ⟨_, rfl⟩
  · intro t ht
    unfold Table.with_capacity at ht
    by_cases hp : is_power_of_2 cap = true
    · rw [if_pos hp] at ht
      cases ht
      rfl
    · rw [if_neg hp] at ht
      cases ht
  · intro h t t' hinv hcr
    by_cases hle : t.chunk.occupation ≤ t.chunk.occu_limit
    · rw [check_resize_noneed h hle] at hcr
      simp at hcr
    · obtain ⟨t2, hcr2, hinv2, _, _, _, hlt⟩ := check_resize_spec hinv hle
      rw [hcr2] at hcr
      simp only [Option.some.injEq, Prod.mk.injEq, true_and] at hcr
      subst hcr
      refine ⟨hinv2.wf.cap_pow, ?_⟩
      have hpos : 0 < t.chunk.capacity := cap_pos hinv.wf.cap_pow
      omega

/-- Witness for C6: capacity 4 is accepted and allocated exactly, and
the resize of the over-occupied capacity-1 table tableGrow creates the
capacity-16 chunk chunkGrown, a power of two at least 2. -/
theorem C6_with_capacity_witness :
    Table.with_capacity Unit 4 =
      some { chunk := Chunk.alloc_chunk Unit 4, new_chunk := none } ∧
    ({ chunk := Chunk.alloc_chunk Unit 4, new_chunk := none } :
      Table Unit).chunk.capacity = 4 ∧
    Table.check_resize (fun k => k) tableGrow =
      some (ResizeResult.Done, { chunk := chunkGrown, new_chunk := none }) ∧
    (∃ m, ({ chunk := chunkGrown, new_chunk := none } :
      Table Unit).chunk.capacity = 2 ^ m) ∧
    2 ≤ ({ chunk := chunkGrown, new_chunk := none } :
      Table Unit).chunk.capacity :=
  ⟨rfl, (C6_with_capacity Unit 4).2.1 _ rfl, by decide,
    ((C6_with_capacity Unit 4).2.2 (fun k => k) tableGrow
      { chunk := chunkGrown, new_chunk := none }
      ⟨⟨rfl, rfl, ⟨0, rfl⟩, rfl, by decide, by decide, by decide, by decide⟩,
        (by decide : tableGrow.chunk.occupation = countKeys tableGrow.chunk),
        (by decide : ∀ i < tableGrow.chunk.capacity,
          tableGrow.chunk.rawAt i ≠ SENTINEL_VALUE), rfl⟩
      (by decide)).1,
    ((C6_with_capacity Unit 4).2.2 (fun k => k) tableGrow
      { chunk := chunkGrown, new_chunk := none }
      ⟨⟨rfl, rfl, ⟨0, rfl⟩, rfl, by decide, by decide, by decide, by decide⟩,
        (by decide : tableGrow.chunk.occupation = countKeys tableGrow.chunk),
        (by decide : ∀ i < tableGrow.chunk.capacity,
          tableGrow.chunk.rawAt i ≠ SENTINEL_VALUE), rfl⟩
      (by decide)).2⟩

/-- Counterexample to the "capacity at least 2" part of C6:
with_capacity accepts 1 and allocates a capacity-1 chunk. -/
theorem C6_capacity_counterexample :
    Table.with_capacity Unit 1 =
      some { chunk := Chunk.alloc_chunk Unit 1, new_chunk := none } ∧
    (Chunk.alloc_chunk Unit 1).capacity < 2 := by decide

/-- Claim C7 (confirmed).  On every reachable table the occupation
counter is bounded by the capacity, and no operation decrements it:
an insert that keeps the chunk (capacity unchanged) can only move it up,
and a remove never changes it. -/
theorem C7_occupation {V : Type} [Inhabited V] {h : Nat → Nat}
    {t : Table V} (hr : Reach h t) :
    t.chunk.occupation ≤ t.chunk.capacity ∧
    (∀ key value a r t', Table.insert h t key value a = some (r, t') →
      t'.chunk.capacity = t.chunk.capacity →
      t.chunk.occupation ≤ t'.chunk.occupation) ∧
    (∀ key r t', Table.remove h t key = some (r, t') →
      t.chunk.occupation ≤ t'.chunk.occupation) := by
  have hinv := reach_inv hr
  refine ⟨?_, ?_, ?_⟩
  · have h1 : t.chunk.occupation = countKeys t.chunk := hinv.occ
    have h2 := countKeys_le_length t.chunk
    rw [hinv.wf.entries_len] at h2
    omega
  · intro key value a r t' he hcap
    by_cases hle : t.chunk.occupation ≤ t.chunk.occu_limit
    · have he2 : Table.insert_fueled h (1 + 1) t key value a =
          some (r, t') := he
      obtain ⟨hc, ho, _⟩ := insert_step_cases hinv.quiescent hle he2
      omega
    · obtain ⟨t1, hcr, hinv1, hle1, _, _, hlt1⟩ := check_resize_spec hinv hle
      have he2 : Table.insert_fueled h (0 + 1) t1 key value a =
          some (r, t') :=
        ((insert_fueled_resize_eq h 1 t t1 key value a hinv.quiescent
          hcr).symm.trans he)
      obtain ⟨hc1, _, _⟩ := insert_step_cases hinv1.quiescent hle1 he2
      exact absurd (hcap.symm.trans hc1) (Nat.ne_of_lt hlt1)
  · intro key r t' he
    obtain ⟨r2, t2, he2, _, _, _, _, _, hocc2⟩ := remove_spec hinv key
    rw [he] at he2
    simp only [Option.some.injEq, Prod.mk.injEq] at he2
    rw [← he2.2] at hocc2
    omega

/-- Witness for C7: the bound on the fresh capacity-2 table. -/
theorem C7_occupation_witness :
    Table.with_capacity Unit 2 = some tableTwo ∧
    tableTwo.chunk.occupation ≤ tableTwo.chunk.capacity :=
  ⟨rfl, (C7_occupation (h := fun k => k) (Reach.init 2 tableTwo rfl)).1⟩

/-- Claim C8 (code bug).  The typed facades do offset user keys by
NUM_KEY_FIX = 5 on the way in, but the insert-then-entries roundtrip
crashes: on a quiescent map Table::entries reads through the null
new_chunk pointer (the source compares the chunk pointers instead of
checking for null), modeled here as entries returning none instead of
the inserted pair. -/
theorem C8_facade_entries_crash :
    (∀ (h : Nat → Nat) (m : WordMap) (key value : Nat),
      WordMap.insert h m key value =
        (Table.insert h m.table ((key + NUM_KEY_FIX) % USIZE_SIZE) value
            ()).map
          (fun r => (r.1.map (fun _ => ()), { table := r.2 }))) ∧
    ∃ m0 m1 : WordMap,
      WordMap.with_capacity 16 = some m0 ∧
      WordMap.insert (fun k => k) m0 50 50 = some (none, m1) ∧
      WordMap.entries m1 = none :=
  ⟨fun _ _ _ _ => rfl, _, _, rfl, rfl, rfl⟩

/-- Claim C9 (confirmed).  modify_entry driven by an Insert operation
never reports Fail and never reports NotFound, so the unreachable branch
in the result match of Table::insert cannot be taken. -/
theorem C9_insert_result_set {V : Type} [Inhabited V] (h : Nat → Nat)
    (c : Chunk V) (key w : Nat) (a : V) :
    (modify_entry h c key (ModOp.Insert w a)).out.result ≠
      ModResult.NotFound ∧
    ∀ v, (modify_entry h c key (ModOp.Insert w a)).out.result ≠
      ModResult.Fail v := by
  unfold modify_entry
  exact modify_loop_insert_result key w a _ _ _ _

/-- Claim C10 (confirmed).  When get is called with read_attachment =
true and returns a pair, its attachment component is Some; with
read_attachment = false the attachment component is always None — so
the unwrap in ObjectMap::get never panics. -/
theorem C10_attachment_some {V : Type} [Inhabited V] (h : Nat → Nat)
    (t : Table V) (key : Nat) :
    (∀ p : Nat × Option V, Table.get h t key true = some p →
      p.2.isSome = true) ∧
    (∀ p : Nat × Option V, Table.get h t key false = some p →
      p.2 = none) := by
  constructor
  · intro p he
    simp only [Table.get] at he
    repeat' split at he
    all_goals try (cases he)
    all_goals first | rfl | simp_all
  · intro p he
    simp only [Table.get] at he
    repeat' split at he
    all_goals try (cases he)
    all_goals first | rfl | simp_all

/-- Witness for C10: reading key 7 from tableLive with the attachment
yields a present attachment. -/
theorem C10_attachment_some_witness :
    Table.get (fun k => k) tableLive 7 true = some (9, some ()) ∧
    ((9, some ()) : Nat × Option Unit).2.isSome = true :=
  ⟨rfl,
    (C10_attachment_some (fun k => k) tableLive 7).1 (9, some ()) rfl⟩

end Lightning
